import Mathlib

/-!
Verification development for the updog columnar index engine.

The Go sources are shallowly embedded: row ids and 64-bit machine words
become `Nat` (with explicit reduction modulo `2 ^ 64` where overflow
matters), roaring bitmaps become `Finset ℕ`, Go maps become association
lists, fallible code returns `Except`/`Option`, and the external xxhash
function `xxhash.Sum64` is an explicit parameter `hash` of every
definition that the source feeds through `getValueIndex`.
-/

namespace Updog

/-- Model of `bits.RotateLeft64(x, 1)` (the only rotation the source uses)
for a 64-bit word represented as a `Nat` below `2 ^ 64`. -/
def rotl64 (x : Nat) : Nat := (x % 2 ^ 63) * 2 + x / 2 ^ 63

/-- `maskNot` from `query.go`. -/
def maskNot : Nat := 0x87A9CD14CAEB50EB

/-- `maskAnd` from `query.go`. -/
def maskAnd : Nat := 0xF9F1F5ADCB67A077

/-- `maskOr` from `query.go`. -/
def maskOr : Nat := 0xBFB85A99B03E78E7

/-- The expression AST of `query.go`: `ExprEqual`, `ExprNot`, `ExprAnd`
(`Exprs []Expression`), `ExprOr` (`Exprs []Expression`). -/
inductive Expr where
  | equal (column value : String)
  | not (e : Expr)
  | and (es : List Expr)
  | or (es : List Expr)

mutual

/-- Model of the `cacheKey()` methods of `query.go`: the 64-bit expression
fingerprint.  `ExprEqual.cacheKey` is `getValueIndex(column, value)`, i.e.
the hash of the pair; `ExprNot.cacheKey` rotates the child key left by one
and XORs `maskNot`; `ExprAnd.cacheKey`/`ExprOr.cacheKey` start from
`maskAnd`/`maskOr` and XOR in each child's rotated key. -/
def cacheKey (hash : String → String → Nat) : Expr → Nat
  | .equal c v => hash c v
  | .not e => rotl64 (cacheKey hash e) ^^^ maskNot
  | .and es => cacheKeyFold hash maskAnd es
  | .or es => cacheKeyFold hash maskOr es

/-- The `for _, e := range e.Exprs { key = key ^ bits.RotateLeft64(e.cacheKey(), 1) }`
loop of `ExprAnd.cacheKey` / `ExprOr.cacheKey`. -/
def cacheKeyFold (hash : String → String → Nat) : Nat → List Expr → Nat
  | key, [] => key
  | key, e :: es => cacheKeyFold hash (key ^^^ rotl64 (cacheKey hash e)) es

end

/-- XOR of a list of words; helper to reason about `cacheKeyFold`. -/
def xorAll : List Nat → Nat
  | [] => 0
  | x :: xs => x ^^^ xorAll xs

/-- Two expressions differ only by the order of children in `And`/`Or`
nodes (at any depth): the equivalence generated by permuting the child
list of an `And`/`Or` node and by rewriting inside any child. -/
inductive ChildOrderEquiv : Expr → Expr → Prop where
  | refl (e) : ChildOrderEquiv e e
  | trans {a b c} : ChildOrderEquiv a b → ChildOrderEquiv b c → ChildOrderEquiv a c
  | notCong {a b} : ChildOrderEquiv a b → ChildOrderEquiv (.not a) (.not b)
  | andCong (pre post : List Expr) {a b} : ChildOrderEquiv a b →
      ChildOrderEquiv (.and (pre ++ a :: post)) (.and (pre ++ b :: post))
  | orCong (pre post : List Expr) {a b} : ChildOrderEquiv a b →
      ChildOrderEquiv (.or (pre ++ a :: post)) (.or (pre ++ b :: post))
  | andPerm {l m : List Expr} : l.Perm m → ChildOrderEquiv (.and l) (.and m)
  | orPerm {l m : List Expr} : l.Perm m → ChildOrderEquiv (.or l) (.or m)

/-! Bitmaps.  A roaring bitmap is modelled as a finite set of row ids;
`RunOptimize` and (de)serialization are content-preserving and vanish. -/

/-- A roaring bitmap: a finite set of 32-bit row ids. -/
abbrev Bitmap := Finset ℕ

/-- Rows are maps from column name to value; the iteration order of the Go
map is irrelevant to every claim, so a list of pairs suffices. -/
abbrev Row := List (String × String)

/-- Model of `roaring.Flip(bm, 0, n)`: flip every bit in `[0, n)`. -/
def flipRange (bm : Bitmap) (n : Nat) : Bitmap :=
  (Finset.range n \ bm) ∪ (bm \ Finset.range n)

/-- Model of `roaring.FastAnd`: intersection of all inputs, empty bitmap
for an empty input list. -/
def fastAnd : List Bitmap → Bitmap
  | [] => ∅
  | b :: bs => bs.foldl (· ∩ ·) b

/-- Model of `roaring.FastOr`: union of all inputs. -/
def fastOr (bs : List Bitmap) : Bitmap := bs.foldl (· ∪ ·) ∅

/-! Association lists, modelling Go maps (plus the bbolt buckets keyed by
value code).  Lookup order is irrelevant to every claim because keys are
never duplicated. -/

/-- Lookup in an association list. -/
def alookup {α β : Type} [DecidableEq α] (k : α) : List (α × β) → Option β
  | [] => none
  | p :: rest => if k = p.1 then some p.2 else alookup k rest

/-- Replace the value stored under an existing key. -/
def aupdate {α β : Type} [DecidableEq α] (k : α) (b : β) : List (α × β) → List (α × β)
  | [] => []
  | p :: rest => if k = p.1 then (k, b) :: rest else p :: aupdate k b rest

/-! The schema (`types.go`): column name to (value to value code). -/

/-- `type column struct { Values map[string]uint64 }`. -/
structure Column where
  values : List (String × Nat)

/-- `type schema struct { Columns map[string]*column }`. -/
structure Schema where
  columns : List (String × Column)

/-- The value-interning part of `schema.add` (`part_003` of the sources):
get-or-create the column's entry for `v`, coding new values with
`getValueIndex(k, v)` — i.e. `hash k v`. -/
def columnAdd (hash : String → String → Nat) (col : Column) (k v : String) :
    Column × Nat :=
  match alookup v col.values with
  | some code => (col, code)
  | none => (⟨col.values ++ [(v, hash k v)]⟩, hash k v)

/-- Model of `schema.add(k, v)`: get-or-create the column, then intern the
value, returning its code. -/
def schemaAdd (hash : String → String → Nat) (sch : Schema) (k v : String) :
    Schema × Nat :=
  match alookup k sch.columns with
  | some col =>
    let p := columnAdd hash col k v
    (⟨aupdate k p.1 sch.columns⟩, p.2)
  | none =>
    let p := columnAdd hash ⟨[]⟩ k v
    (⟨sch.columns ++ [(k, p.1)]⟩, p.2)

/-! The in-memory builder (`writer.go`). -/

/-- `IndexWriter` state: schema, per-code posting bitmaps, next row id. -/
structure IndexWriter where
  schema : Schema
  values : List (Nat × Bitmap)
  nextRowID : Nat

/-- `NewIndexWriter()`. -/
def emptyIndexWriter : IndexWriter := ⟨⟨[]⟩, [], 0⟩

/-- The `getValueBitmap` + `bm.Add(rowID)` step of `AddRow`: insert
`row` into the posting for `code`, creating the posting if absent. -/
def addPosting (values : List (Nat × Bitmap)) (code row : Nat) :
    List (Nat × Bitmap) :=
  match alookup code values with
  | some bm => aupdate code (insert row bm) values
  | none => values ++ [(code, {row})]

/-- One step of the `for k, v := range values` loop of `AddRow`: intern
the pair into the schema and set the row's bit in the pair's posting. -/
def addPair (hash : String → String → Nat) (rowID : Nat) (acc : IndexWriter)
    (kv : String × String) : IndexWriter :=
  { acc with
    schema := (schemaAdd hash acc.schema kv.1 kv.2).1,
    values := addPosting acc.values (schemaAdd hash acc.schema kv.1 kv.2).2 rowID }

/-- Model of `IndexWriter.AddRow`: remember the current row id, intern
each field pair into the schema and set the row's bit in the pair's
posting, then increment `nextRowID`; the row id is returned. -/
def addRow (hash : String → String → Nat) (w : IndexWriter)
    (row : List (String × String)) : Nat × IndexWriter :=
  let rowID := w.nextRowID
  let w2 := row.foldl (addPair hash rowID) w
  (rowID, { w2 with nextRowID := rowID + 1 })

/-- Feed a list of rows to a fresh `IndexWriter`. -/
def buildWriter (hash : String → String → Nat)
    (rows : List (List (String × String))) : IndexWriter :=
  rows.foldl (fun w r => (addRow hash w r).2) emptyIndexWriter

/-! The persistent store (`index.go` / `writer.go`).  The three key
classes of the `data` bucket — `S` (gob-encoded schema), `I` (big-endian
next row id) and `V‖code` (serialized posting) — are modelled as the
three fields below; gob and roaring serialization round-trip. -/

/-- Logical content of an index file. -/
structure Store where
  schema : Schema
  nextRowID : Nat
  postings : List (Nat × Bitmap)

/-- Model of `IndexWriter.WriteToBoltDatabase`: run-optimize (a no-op on
contents), then write schema, next row id, and every posting. -/
def writeToStore (w : IndexWriter) : Store := ⟨w.schema, w.nextRowID, w.values⟩

/-! The opened index (`index.go`). -/

/-- An opened `Index`: eagerly loaded schema and row count, plus the
column getter `GetCol(code) → (bitmap, error)`.  The on-demand getter
fails (`FromBuffer` on a nil item) when the key is absent; the preloaded
getter returns a nil bitmap then — both land in the same
empty-bitmap coalescing branch of `ExprEqual.eval`. -/
structure Index where
  schema : Schema
  nextRowID : Nat
  getCol : Nat → Except Unit Bitmap

/-- Model of `OpenIndexFromBoltDatabase` with the default on-demand
column getter. -/
def openIndex (st : Store) : Index :=
  ⟨st.schema, st.nextRowID, fun code =>
    match alookup code st.postings with
    | some bm => .ok bm
    | none => .error ()⟩

/-! The cache interface (`cache.go`) and the evaluator (`query.go`).
The evaluator threads the mutable cache as explicit state. -/

/-- The `Cache` interface: `Get` may touch LRU order, so it returns a new
state alongside the optional hit. -/
structure CacheOps (σ : Type) where
  get : σ → Nat → Option Bitmap × σ
  put : σ → Nat → Bitmap → σ

/-- The `nullCache`: always miss, `Put` is a no-op. -/
def nullCacheOps : CacheOps Unit :=
  ⟨fun s _ => (none, s), fun s _ _ => s⟩

mutual

/-- Model of the `eval` methods of `query.go`.  `ExprEqual.eval` errors on
an unknown column, else consults the cache under the fingerprint and on a
miss coalesces any `GetCol` failure (or nil bitmap) into the empty bitmap
before caching it.  `ExprNot.eval` flips the child over `[0, nextRowID)`.
`ExprAnd.eval`/`ExprOr.eval` combine the children with
`FastAnd`/`FastOr`.  Errors propagate; the cache state mutated so far is
kept, as in the source. -/
def evalExpr {σ : Type} (hash : String → String → Nat) (C : CacheOps σ)
    (idx : Index) : Expr → σ → Except String Bitmap × σ
  | .equal c v, s =>
    match alookup c idx.schema.columns with
    | none => (.error ("column " ++ c ++ " not found in schema"), s)
    | some _ =>
      match C.get s (cacheKey hash (.equal c v)) with
      | (some bm, s1) => (.ok bm, s1)
      | (none, s1) =>
        let bm : Bitmap :=
          match idx.getCol (hash c v) with
          | .error _ => ∅
          | .ok bm => bm
        (.ok bm, C.put s1 (cacheKey hash (.equal c v)) bm)
  | .not e, s =>
    match C.get s (cacheKey hash (.not e)) with
    | (some bm, s1) => (.ok bm, s1)
    | (none, s1) =>
      match evalExpr hash C idx e s1 with
      | (.error m, s2) => (.error m, s2)
      | (.ok bm, s2) =>
        (.ok (flipRange bm idx.nextRowID),
         C.put s2 (cacheKey hash (.not e)) (flipRange bm idx.nextRowID))
  | .and es, s =>
    match C.get s (cacheKey hash (.and es)) with
    | (some bm, s1) => (.ok bm, s1)
    | (none, s1) =>
      match evalList hash C idx es s1 with
      | (.error m, s2) => (.error m, s2)
      | (.ok elems, s2) =>
        (.ok (fastAnd elems), C.put s2 (cacheKey hash (.and es)) (fastAnd elems))
  | .or es, s =>
    match C.get s (cacheKey hash (.or es)) with
    | (some bm, s1) => (.ok bm, s1)
    | (none, s1) =>
      match evalList hash C idx es s1 with
      | (.error m, s2) => (.error m, s2)
      | (.ok elems, s2) =>
        (.ok (fastOr elems), C.put s2 (cacheKey hash (.or es)) (fastOr elems))

/-- The child-evaluation loop of `ExprAnd.eval` / `ExprOr.eval`. -/
def evalList {σ : Type} (hash : String → String → Nat) (C : CacheOps σ)
    (idx : Index) : List Expr → σ → Except String (List Bitmap) × σ
  | [], s => (.ok [], s)
  | e :: es, s =>
    match evalExpr hash C idx e s with
    | (.error m, s1) => (.error m, s1)
    | (.ok bm, s1) =>
      match evalList hash C idx es s1 with
      | (.error m, s2) => (.error m, s2)
      | (.ok bms, s2) => (.ok (bm :: bms), s2)

end

mutual

/-- Cache-free denotation of an expression against an opened index: what
`eval` computes when every cache lookup misses. -/
def denote (hash : String → String → Nat) (idx : Index) :
    Expr → Except String Bitmap
  | .equal c v =>
    match alookup c idx.schema.columns with
    | none => .error ("column " ++ c ++ " not found in schema")
    | some _ =>
      .ok (match idx.getCol (hash c v) with
           | .error _ => ∅
           | .ok bm => bm)
  | .not e =>
    match denote hash idx e with
    | .error m => .error m
    | .ok bm => .ok (flipRange bm idx.nextRowID)
  | .and es =>
    match denoteList hash idx es with
    | .error m => .error m
    | .ok elems => .ok (fastAnd elems)
  | .or es =>
    match denoteList hash idx es with
    | .error m => .error m
    | .ok elems => .ok (fastOr elems)

/-- Cache-free denotation of a child list. -/
def denoteList (hash : String → String → Nat) (idx : Index) :
    List Expr → Except String (List Bitmap)
  | [] => .ok []
  | e :: es =>
    match denote hash idx e with
    | .error m => .error m
    | .ok bm =>
      match denoteList hash idx es with
      | .error m => .error m
      | .ok bms => .ok (bm :: bms)

end

mutual

/-- Classical boolean satisfaction of an expression by row `r` of the
original row stream, with `Not` complementing within `[0, n)`:
`Eq` holds iff the row had that column equal to that value. -/
def satB (rows : List (List (String × String))) (n : Nat) (r : Nat) :
    Expr → Bool
  | .equal c v => decide ((c, v) ∈ rows.getD r [])
  | .not e => decide (r < n) && !(satB rows n r e)
  | .and es => satAll rows n r es
  | .or es => satAny rows n r es

/-- Conjunction over children. -/
def satAll (rows : List (List (String × String))) (n : Nat) (r : Nat) :
    List Expr → Bool
  | [] => true
  | e :: es => satB rows n r e && satAll rows n r es

/-- Disjunction over children. -/
def satAny (rows : List (List (String × String))) (n : Nat) (r : Nat) :
    List Expr → Bool
  | [] => false
  | e :: es => satB rows n r e || satAny rows n r es

end

mutual

/-- Every `And`/`Or` node has at least one child — the shape the spec's
AST (§4.5, "ordered list of ≥1") guarantees. -/
def wellFormed : Expr → Bool
  | .equal _ _ => true
  | .not e => wellFormed e
  | .and es => !es.isEmpty && wellFormedList es
  | .or es => !es.isEmpty && wellFormedList es

/-- `wellFormed` on every element. -/
def wellFormedList : List Expr → Bool
  | [] => true
  | e :: es => wellFormed e && wellFormedList es

end

mutual

/-- Every column mentioned by an `Eq` leaf is present in the schema. -/
def columnsKnown (sch : Schema) : Expr → Bool
  | .equal c _ => (alookup c sch.columns).isSome
  | .not e => columnsKnown sch e
  | .and es => columnsKnownList sch es
  | .or es => columnsKnownList sch es

/-- `columnsKnown` on every element. -/
def columnsKnownList (sch : Schema) : List Expr → Bool
  | [] => true
  | e :: es => columnsKnown sch e && columnsKnownList sch es

end

mutual

/-- All `(column, value)` pairs appearing in `Eq` leaves. -/
def exprPairs : Expr → List (String × String)
  | .equal c v => [(c, v)]
  | .not e => exprPairs e
  | .and es => exprPairsList es
  | .or es => exprPairsList es

/-- `exprPairs` over a child list. -/
def exprPairsList : List Expr → List (String × String)
  | [] => []
  | e :: es => exprPairs e ++ exprPairsList es

end

/-! Group-by evaluation (`query.go`: `populateGroupBy`, `groupBy`). -/

/-- `ResultField`: one column/value pair of a grouped result. -/
structure ResultField where
  column : String
  value : String
deriving DecidableEq, Repr

/-- `ResultGroup`: one grouped result with its count. -/
structure ResultGroup where
  fields : List ResultField
  count : Nat
deriving DecidableEq, Repr

/-- The query `Result`: total count plus grouped results. -/
structure Result where
  count : Nat
  groups : List ResultGroup
deriving DecidableEq, Repr

/-- `groupByValue`: a value of a group-by column with its value code. -/
structure GroupByValue where
  value : String
  idx : Nat
deriving DecidableEq, Repr

/-- `groupBy`: a group-by column with its (sorted) values. -/
structure GroupByField where
  column : String
  values : List GroupByValue
deriving DecidableEq, Repr

/-- Byte-lexicographic string comparison, the order Go's `<` on strings
uses (UTF-8 byte order equals code-point order). -/
def charsLE : List Char → List Char → Bool
  | [], _ => true
  | _ :: _, [] => false
  | a :: as, b :: bs =>
    if a.toNat < b.toNat then true
    else if b.toNat < a.toNat then false
    else charsLE as bs

/-- String comparison `a ≤ b` as Go compares strings. -/
def strLE (a b : String) : Bool := charsLE a.data b.data

/-- The order `populateGroupBy` sorts a column's values in
(`sort.Slice` by ascending `Value`). -/
def gbvLE (a b : GroupByValue) : Prop := strLE a.value b.value = true

instance : DecidableRel gbvLE := fun a b => by unfold gbvLE; infer_instance

/-- Model of `Query.populateGroupBy`: look up each group-by column
(unknown column is an error), collect its (value, code) pairs and sort
them by ascending value. -/
def populateGroupBy (sch : Schema) : List String → Except String (List GroupByField)
  | [] => .ok []
  | colName :: rest =>
    match alookup colName sch.columns with
    | none => .error ("column " ++ colName ++ " not found")
    | some col =>
      match populateGroupBy sch rest with
      | .error m => .error m
      | .ok gbs =>
        .ok (⟨colName,
              (col.values.map fun p => GroupByValue.mk p.1 p.2).insertionSort gbvLE⟩
             :: gbs)

/-- The accumulator `resultGroup` of `Query.groupBy`: fields collected so
far plus the intersection bitmap. -/
structure ResultGroupAcc where
  fields : List ResultField
  result : Bitmap

/-- The inner `for _, v := range gbf.Values` loop of `Query.groupBy`:
failed `GetCol` reads are skipped (`continue`), zero-cardinality
intersections are dropped, surviving values extend the fields. -/
def expandValues (idx : Index) (rg : ResultGroupAcc) (colName : String) :
    List GroupByValue → List ResultGroupAcc
  | [] => []
  | v :: rest =>
    match idx.getCol v.idx with
    | .error _ => expandValues idx rg colName rest
    | .ok vbm =>
      let res := rg.result ∩ vbm
      if res.card = 0 then expandValues idx rg colName rest
      else ⟨rg.fields ++ [⟨colName, v.value⟩], res⟩ :: expandValues idx rg colName rest

/-- One `for _, gbf := range q.groupByFields` iteration: expand every
frontier entry. -/
def expandField (idx : Index) (rgs : List ResultGroupAcc) (gbf : GroupByField) :
    List ResultGroupAcc :=
  rgs.flatMap fun rg => expandValues idx rg gbf.column gbf.values

/-- Model of `Query.groupBy`: empty group-by list yields no groups; else
expand the frontier per field in order and emit each survivor with its
cardinality. -/
def groupByRun (idx : Index) (gbfs : List GroupByField) (result : Bitmap) :
    List ResultGroup :=
  match gbfs with
  | [] => []
  | _ :: _ =>
    ((gbfs.foldl (expandField idx) [⟨[], result⟩]).map
      fun rg => ResultGroup.mk rg.fields rg.result.card)

/-- A query: expression plus group-by column list. -/
structure Query where
  expr : Expr
  groupBy : List String

/-- Model of `Index.Execute` with the default `nullCache`: populate the
group-by fields, evaluate the expression, return total count and groups. -/
def executeQuery (hash : String → String → Nat) (idx : Index) (q : Query) :
    Except String Result :=
  match populateGroupBy idx.schema q.groupBy with
  | .error m => .error m
  | .ok gbfs =>
    match evalExpr hash nullCacheOps idx q.expr () with
    | (.error m, _) => .error m
    | (.ok bm, _) => .ok ⟨bm.card, groupByRun idx gbfs bm⟩

/-! The LRU cache (`cache.go` / `part_000`).  The byte size reported by
`roaring.GetSizeInBytes` and the constant
`lruCacheItemSize + listElementSize` overhead are parameters `bmSize` and
`overhead`. -/

/-- `lruCacheItem`: key, the size recorded at insertion, and the bitmap. -/
structure LruItem where
  key : Nat
  size : Nat
  bm : Bitmap
deriving DecidableEq

/-- The `lruCache` state: the list (most recently used first, modelling
`lruList` plus the `entries` map), current and maximum accounted size. -/
structure LruState where
  items : List LruItem
  curSize : Nat
  maxSize : Nat

/-- `newLRUCache(maxSize)`. -/
def newLRUCache (maxSize : Nat) : LruState := ⟨[], 0, maxSize⟩

/-- Model of `lruCache.Get`: on a hit, move the entry to the front
(most recently used) and return its bitmap. -/
def lruGet (s : LruState) (key : Nat) : Option Bitmap × LruState :=
  match s.items.find? (fun it => decide (it.key = key)) with
  | none => (none, s)
  | some it =>
    (some it.bm,
     { s with items := it :: s.items.eraseP (fun j => decide (j.key = key)) })

/-- The eviction loop of `lruCache.Put` on the reversed item list (least
recently used first): while the accounted size exceeds `maxSize` and
entries remain, drop the least recently used entry and subtract its
accounted size. -/
def lruEvictRev (maxSize overhead : Nat) : List LruItem → Nat → List LruItem × Nat
  | [], cur => ([], cur)
  | it :: rest, cur =>
    if maxSize < cur then lruEvictRev maxSize overhead rest (cur - (it.size + overhead))
    else (it :: rest, cur)

/-- The eviction loop of `lruCache.Put`: while `curSize > maxSize` and the
list is non-empty, remove the back of the LRU list and subtract its
accounted size (realized by evicting on the reversed list). -/
def lruEvict (maxSize overhead : Nat) (items : List LruItem) (cur : Nat) :
    List LruItem × Nat :=
  let p := lruEvictRev maxSize overhead items.reverse cur
  (p.1.reverse, p.2)

/-- Model of `lruCache.Put`: an existing key is moved to the front and its
bitmap overwritten (its recorded size and `curSize` stay unchanged, as in
the source); a new key is pushed at the front, the accounted size
`bmSize bm + overhead` is added, and the eviction loop runs. -/
def lruPut (bmSize : Bitmap → Nat) (overhead : Nat) (s : LruState)
    (key : Nat) (bm : Bitmap) : LruState :=
  match s.items.find? (fun it => decide (it.key = key)) with
  | some it =>
    { s with
      items := ⟨it.key, it.size, bm⟩ :: s.items.eraseP (fun j => decide (j.key = key)) }
  | none =>
    let it : LruItem := ⟨key, bmSize bm, bm⟩
    let p := lruEvict s.maxSize overhead (it :: s.items)
      (s.curSize + (it.size + overhead))
    { s with items := p.1, curSize := p.2 }

/-- The LRU cache as a `CacheOps` instance. -/
def lruCacheOps (bmSize : Bitmap → Nat) (overhead : Nat) : CacheOps LruState :=
  ⟨lruGet, lruPut bmSize overhead⟩

/-! The external builder (`writer_big.go`).  The scratch bucket `temp`
holds the 12-byte keys `BE64(code) ‖ BE32(rowID)` with empty values; the
bbolt cursor yields them sorted by `(code, rowID)`, which the model
reproduces by sorting at flush time. -/

/-- `BigIndexWriter` state: schema, the scratch key list, next row id. -/
structure BigIndexWriter where
  schema : Schema
  temp : List (Nat × Nat)
  nextRowID : Nat

/-- One pair of `BigIndexWriter.AddRow`: intern into the schema and write
the `(code, rowID)` scratch key. -/
def bigAddPair (hash : String → String → Nat) (rowID : Nat)
    (acc : BigIndexWriter) (kv : String × String) : BigIndexWriter :=
  { acc with
    schema := (schemaAdd hash acc.schema kv.1 kv.2).1,
    temp := acc.temp ++ [((schemaAdd hash acc.schema kv.1 kv.2).2, rowID)] }

/-- Model of `BigIndexWriter.AddRow` (the periodic scratch commit has no
effect on the contents). -/
def bigAddRow (hash : String → String → Nat) (w : BigIndexWriter)
    (row : Row) : Nat × BigIndexWriter :=
  let rowID := w.nextRowID
  let w2 := row.foldl (bigAddPair hash rowID) w
  (rowID, { w2 with nextRowID := rowID + 1 })

/-- Feed a list of rows to a fresh `BigIndexWriter`. -/
def bigBuild (hash : String → String → Nat) (rows : List Row) : BigIndexWriter :=
  rows.foldl (fun w r => (bigAddRow hash w r).2) ⟨⟨[]⟩, [], 0⟩

/-- The scratch key order: `(code, rowID)` lexicographic, the bbolt byte
order of `BE64(code) ‖ BE32(rowID)`. -/
def tempLE (a b : Nat × Nat) : Prop := a.1 < b.1 ∨ (a.1 = b.1 ∧ a.2 ≤ b.2)

instance : DecidableRel tempLE := fun a b => by unfold tempLE; infer_instance

/-- The grouping loop of `BigIndexWriter.Flush` over the sorted scratch
keys, carrying `(currentValueIdx, bm)`.  On a code change the previous
bitmap (if any) is emitted; then the row id is added to the current
bitmap.  `currentValueIdx` starts at `0` with no bitmap, so a first key
whose code is `0` makes the source call `bm.Add` on a nil bitmap — a
panic, modelled as `none`. -/
def flushGroup (out : List (Nat × Bitmap)) (currentValueIdx : Nat)
    (bm : Option Bitmap) : List (Nat × Nat) → Option (List (Nat × Bitmap))
  | [] =>
    match bm with
    | none => some out
    | some b => some (out ++ [(currentValueIdx, b)])
  | (code, row) :: rest =>
    if currentValueIdx ≠ code then
      let out' := match bm with
        | none => out
        | some b => out ++ [(currentValueIdx, b)]
      flushGroup out' code (some (insert row ∅)) rest
    else
      match bm with
      | none => none
      | some b => flushGroup out currentValueIdx (some (insert row b)) rest

/-- Model of `BigIndexWriter.Flush`: group the sorted scratch keys into
per-code bitmaps (run-optimize preserves contents), then write them with
the next row id and the schema to the final store. -/
def bigFlush (w : BigIndexWriter) : Option Store :=
  match flushGroup [] 0 none (w.temp.insertionSort tempLE) with
  | none => none
  | some postings => some ⟨w.schema, w.nextRowID, postings⟩

/-- One step of `bigBuild` folded over the row stream. -/
def bigStep (hash : String → String → Nat) (w : BigIndexWriter) (row : Row) :
    BigIndexWriter :=
  (bigAddRow hash w row).2

/-- The rows filed under `code` in a scratch key list. -/
def tempRowsOf (code : Nat) : List (Nat × Nat) → Bitmap
  | [] => ∅
  | p :: rest =>
    if p.1 = code then insert p.2 (tempRowsOf code rest) else tempRowsOf code rest

/-- The grouping loop of `Flush` in its running state (a current code and a
non-nil current bitmap): the list of emitted `(code, bitmap)` groups. -/
def groupsFrom (cur : Nat) (b : Bitmap) : List (Nat × Nat) → List (Nat × Bitmap)
  | [] => [(cur, b)]
  | (code, row) :: rest =>
    if cur ≠ code then (cur, b) :: groupsFrom code (insert row ∅) rest
    else groupsFrom cur (insert row b) rest

/-- The schema evolution of one row, common to both builders. -/
def schemaFoldRow (hash : String → String → Nat) (sch : Schema) (row : Row) :
    Schema :=
  row.foldl (fun s kv => (schemaAdd hash s kv.1 kv.2).1) sch

/-! The protobuf query AST and placeholder substitution
(`cmd/updog/queryparser/walk.go`). -/

/-- The `updogv1.Query_Expression` AST the parser produces: `Eq` carries
column, value and the positional placeholder (0 = none). -/
inductive PExpr where
  | eq (column value : String) (placeholder : Nat)
  | not (e : PExpr)
  | and (es : List PExpr)
  | or (es : List PExpr)

/-- The parsed `Query`: expression plus group-by columns. -/
structure PQuery where
  expr : PExpr
  groupBy : List String

mutual

/-- The walk of `ReplacePlaceholders`: each `Eq` with `placeholder = n > 0`
is replaced by `Eq` with value `values[n-1]` and placeholder 0; other
nodes are rebuilt unchanged.  When `n` exceeds the argument list the
source indexes out of range — a runtime panic, modelled as `none`. -/
def replaceExpr (values : List String) : PExpr → Option PExpr
  | .eq c v p =>
    if p > 0 then
      match values.get? (p - 1) with
      | some a => some (.eq c a 0)
      | none => none
    else some (.eq c v p)
  | .not e =>
    match replaceExpr values e with
    | none => none
    | some e' => some (.not e')
  | .and es =>
    match replaceList values es with
    | none => none
    | some es' => some (.and es')
  | .or es =>
    match replaceList values es with
    | none => none
    | some es' => some (.or es')

/-- `replaceExpr` over a child list. -/
def replaceList (values : List String) : List PExpr → Option (List PExpr)
  | [] => some []
  | e :: es =>
    match replaceExpr values e with
    | none => none
    | some e' =>
      match replaceList values es with
      | none => none
      | some es' => some (e' :: es')

end

/-- Model of `ReplacePlaceholders` (`none` models the index-out-of-range
panic on a missing argument). -/
def replacePlaceholders (q : PQuery) (values : List String) : Option PQuery :=
  match replaceExpr values q.expr with
  | none => none
  | some e' => some ⟨e', q.groupBy⟩

mutual

/-- Every placeholder of the expression is bound by the argument list
(placeholder `0` means none). -/
def placeholdersBoundExpr (values : List String) : PExpr → Bool
  | .eq _ _ p => if p = 0 then true else (values.get? (p - 1)).isSome
  | .not e => placeholdersBoundExpr values e
  | .and es => placeholdersBoundList values es
  | .or es => placeholdersBoundList values es

/-- `placeholdersBoundExpr` over a child list. -/
def placeholdersBoundList (values : List String) : List PExpr → Bool
  | [] => true
  | e :: es => placeholdersBoundExpr values e && placeholdersBoundList values es

end

/-! The lexer and parser (`cmd/updog/queryparser/walk.go`).  Error
messages are modelled without the `line:column` prefix. -/

/-- The lexer's token type (`itemType` plus the token's text where it
matters). -/
inductive Item where
  | errTok (msg : String)
  | eof
  | openParen
  | closeParen
  | andTok
  | orTok
  | notTok
  | equalTok
  | comma
  | semicolon
  | field (s : String)
  | value (s : String)
deriving DecidableEq, Repr

/-- Whitespace skipped by `lexText`. -/
def isSpace (c : Char) : Bool := c = ' ' || c = '\n' || c = '\r' || c = '\t'

/-- The characters that may start a field (`a`–`z`, `A`–`Z`). -/
def isAlpha (c : Char) : Bool :=
  ('a' ≤ c && c ≤ 'z') || ('A' ≤ c && c ≤ 'Z')

/-- The `acceptRun` character set of `lexField`. -/
def isFieldChar (c : Char) : Bool :=
  isAlpha c || ('0' ≤ c && c ≤ '9') || c = '_'

/-- The scan of `lexValue` after the opening quote: a doubled `""` stays
in the token, a single `"` ends it; reaching the end of input without the
closing quote emits no value token (`none`). -/
def lexValueLoop : List Char → Option (List Char × List Char)
  | [] => none
  | '"' :: rest =>
    match rest with
    | '"' :: rest2 =>
      match lexValueLoop rest2 with
      | none => none
      | some (tok, r) => some ('"' :: '"' :: tok, r)
    | _ => some (['"'], rest)
  | c :: rest =>
    match lexValueLoop rest with
    | none => none
    | some (tok, r) => some (c :: tok, r)

/-- The `lexText` state machine producing the token stream; `fuel` only
serves termination and any value at least the input length is enough. -/
def lexChars : Nat → List Char → List Item
  | _, [] => [.eof]
  | 0, _ => []
  | fuel + 1, c :: rest =>
    if isSpace c then lexChars fuel rest
    else if c = '(' then .openParen :: lexChars fuel rest
    else if c = ')' then .closeParen :: lexChars fuel rest
    else if c = '&' then .andTok :: lexChars fuel rest
    else if c = '|' then .orTok :: lexChars fuel rest
    else if c = '^' then .notTok :: lexChars fuel rest
    else if c = ',' then .comma :: lexChars fuel rest
    else if c = ';' then .semicolon :: lexChars fuel rest
    else if c = '=' then .equalTok :: lexChars fuel rest
    else if isAlpha c then
      .field (String.mk ((c :: rest).takeWhile isFieldChar)) ::
        lexChars fuel ((c :: rest).dropWhile isFieldChar)
    else if c = '"' then
      match lexValueLoop rest with
      | none => [.eof]
      | some (tok, rest2) => .value (String.mk ('"' :: tok)) :: lexChars fuel rest2
    else [.errTok "unknown token"]

/-- The `strings.ReplaceAll(s, quotequote, quote)` of `decodeString`. -/
def undouble : List Char → List Char
  | '"' :: '"' :: rest => '"' :: undouble rest
  | c :: rest => c :: undouble rest
  | [] => []

/-- Model of `decodeString`: strip the outer quotes and undouble the
embedded ones. -/
def decodeString (s : String) : String :=
  if s.length < 2 then s
  else
    let cs := s.data
    let cs1 := if cs.head? = some '"' then cs.tail else cs
    let cs2 := if cs1.getLast? = some '"' then cs1.dropLast else cs1
    String.mk (undouble cs2)

/-- Model of `parser.parseComparison`: `field`, `=`, quoted value. -/
def parseComparison : List Item → Except String (PExpr × List Item)
  | .field c :: .equalTok :: .value v :: rest =>
    .ok (.eq c (decodeString v) 0, rest)
  | .field _ :: .equalTok :: _ => .error "expected value"
  | .field _ :: _ => .error "expected ="
  | _ => .error "expected field"

mutual

/-- Model of `parser.parseExpr`: one simple expression, then — depending
on the next token — an `&` chain, a `|` chain, or nothing. -/
def parseExpr : Nat → List Item → Except String (PExpr × List Item)
  | 0, _ => .error "out of fuel"
  | fuel + 1, ts =>
    match parseSimpleExpr fuel ts with
    | .error m => .error m
    | .ok (e, rest) =>
      match rest with
      | .andTok :: _ => parseAndChain fuel [e] rest
      | .orTok :: _ => parseOrChain fuel [e] rest
      | _ => .ok (e, rest)

/-- The `for p.peek().typ == itemAnd` loop of `parseAndExpr`. -/
def parseAndChain : Nat → List PExpr → List Item → Except String (PExpr × List Item)
  | 0, _, _ => .error "out of fuel"
  | fuel + 1, acc, ts =>
    match ts with
    | .andTok :: rest =>
      match parseSimpleExpr fuel rest with
      | .error m => .error m
      | .ok (e, rest2) => parseAndChain fuel (acc ++ [e]) rest2
    | _ => .ok (.and acc, ts)

/-- The `for p.peek().typ == itemOr` loop of `parseOrExpr`. -/
def parseOrChain : Nat → List PExpr → List Item → Except String (PExpr × List Item)
  | 0, _, _ => .error "out of fuel"
  | fuel + 1, acc, ts =>
    match ts with
    | .orTok :: rest =>
      match parseSimpleExpr fuel rest with
      | .error m => .error m
      | .ok (e, rest2) => parseOrChain fuel (acc ++ [e]) rest2
    | _ => .ok (.or acc, ts)

/-- Model of `parser.parseSimpleExpr`: parenthesized expression, `^`
negation, or comparison. -/
def parseSimpleExpr : Nat → List Item → Except String (PExpr × List Item)
  | 0, _ => .error "out of fuel"
  | fuel + 1, ts =>
    match ts with
    | .openParen :: rest =>
      match parseExpr fuel rest with
      | .error m => .error m
      | .ok (e, rest2) =>
        match rest2 with
        | .closeParen :: rest3 => .ok (e, rest3)
        | _ => .error "expected )"
    | .notTok :: rest =>
      match parseSimpleExpr fuel rest with
      | .error m => .error m
      | .ok (e, rest2) => .ok (.not e, rest2)
    | .field _ :: _ => parseComparison ts
    | _ => .error "unexpected token"

end

/-- The `for p.peek().typ == itemComma` loop of `parseFieldList`. -/
def parseFieldsMore (acc : List String) : List Item → List String × List Item
  | .comma :: .field f :: rest => parseFieldsMore (acc ++ [f]) rest
  | ts => (acc, ts)

/-- Model of `parser.parseFieldList`. -/
def parseFieldList : List Item → Except String (List String × List Item)
  | .field f :: rest =>
    match parseFieldsMore [f] rest with
    | p =>
      match p.2 with
      | .comma :: _ => .error "expected field"
      | _ => .ok p
  | _ => .error "expected field"

/-- Model of `parser.parse` on a token stream: parse the expression, then
an optional `;` field list.  Note the source checks nothing after that —
trailing tokens are silently ignored. -/
def parseQueryTokens (ts : List Item) : Except String PQuery :=
  match parseExpr (2 * ts.length + 4) ts with
  | .error m => .error m
  | .ok (e, rest) =>
    match rest with
    | .semicolon :: rest2 =>
      match parseFieldList rest2 with
      | .error m => .error m
      | .ok (gb, _) => .ok ⟨e, gb⟩
    | _ => .ok ⟨e, []⟩

/-- Model of `ParseQuery`: lex, then parse. -/
def parseQuery (q : String) : Except String PQuery :=
  parseQueryTokens (lexChars (q.length + 1) q.data)

/-- A row contains some field pair whose value code is `code`. -/
def rowHasCode (hash : String → String → Nat) (row : Row) (code : Nat) : Bool :=
  row.any fun kv => decide (hash kv.1 kv.2 = code)


/-- Every code stored in the schema is the hash of its (column, value) pair. -/
def SchemaHashed (hash : String → String → Nat) (sch : Schema) : Prop :=
  ∀ k col, alookup k sch.columns = some col →
    ∀ v code, alookup v col.values = some code → code = hash k v


/-- The builder step folded over the row stream. -/
def buildStep (hash : String → String → Nat) (w : IndexWriter) (row : Row) :
    IndexWriter :=
  (addRow hash w row).2


/-! Concrete instances used by the witnesses. -/

/-- A sample value coder for the concrete witnesses: an injective table on
the demo universe of (column, value) pairs, never zero. -/
def demoHash (k v : String) : Nat :=
  (match k with
   | "a" => 1 | "b" => 2 | "c" => 3 | "x" => 4 | _ => 9) * 16 +
  (match v with
   | "1" => 1 | "2" => 2 | "3" => 3 | "4" => 4 | "5" => 5 | "8" => 6
   | "true" => 7 | "false" => 8 | _ => 9) + 1

/-- The rows of spec scenario 2. -/
def demoRows2 : List Row :=
  [[("a", "1"), ("b", "2"), ("c", "3")],
   [("a", "2"), ("b", "2"), ("c", "3")],
   [("a", "3"), ("b", "4"), ("c", "5")]]

/-- The rows of spec scenario 3. -/
def demoRows3 : List Row :=
  [[("a", "1"), ("b", "2"), ("c", "3"), ("x", "true")],
   [("a", "2"), ("b", "2"), ("c", "3"), ("x", "true")],
   [("a", "2"), ("b", "5"), ("c", "3"), ("x", "false")],
   [("a", "2"), ("b", "6"), ("c", "8"), ("x", "false")],
   [("a", "3"), ("b", "2"), ("c", "7"), ("x", "false")],
   [("a", "3"), ("b", "4"), ("c", "5")]]

/-- The scenario-3 index: build, persist and reopen the six demo rows. -/
def demoIdx3 : Index := openIndex (writeToStore (buildWriter demoHash demoRows3))


/-- An opened index over one column whose column getter always fails,
modelling an underlying store whose reads error. -/
def failingIndex : Index :=
  ⟨⟨[("a", ⟨[("1", demoHash "a" "1")]⟩)]⟩, 1, fun _ => .error ()⟩


/-- The accounted size of one cache entry:
`item.size + lruCacheItemSize + listElementSize`. -/
def lruAcct (overhead : Nat) (it : LruItem) : Nat := it.size + overhead

/-- A sequence of `Put` operations applied in order. -/
def applyPuts (bmSize : Bitmap → Nat) (overhead : Nat) (s : LruState) :
    List (Nat × Bitmap) → LruState
  | [] => s
  | kb :: rest => applyPuts bmSize overhead (lruPut bmSize overhead s kb.1 kb.2) rest

/-- `curSize` equals the sum of the accounted entry sizes. -/
def lruWellSized (overhead : Nat) (s : LruState) : Prop :=
  s.curSize = (s.items.map (lruAcct overhead)).sum


mutual

/-- All subexpressions of an expression (itself included): the set of
expressions whose evaluation may touch the cache during `eval`. -/
def subExprs : Expr → List Expr
  | .equal c v => [.equal c v]
  | .not e => .not e :: subExprs e
  | .and es => .and es :: subExprsList es
  | .or es => .or es :: subExprsList es

/-- `subExprs` over a child list. -/
def subExprsList : List Expr → List Expr
  | [] => []
  | e :: es => subExprs e ++ subExprsList es

end

/-- The cache state after evaluating a sequence of expressions in order
(each evaluation keeps its cache mutations, even before an error). -/
def execSeq {σ : Type} (hash : String → String → Nat) (C : CacheOps σ)
    (idx : Index) (s : σ) : List Expr → σ
  | [] => s
  | e :: rest => execSeq hash C idx (evalExpr hash C idx e s).2 rest

/-- Decidable equality for `Except`, used by concrete witnesses. -/
instance {ε α : Type} [DecidableEq ε] [DecidableEq α] :
    DecidableEq (Except ε α) := fun x y =>
  match x, y with
  | .error a, .error b =>
    if h : a = b then .isTrue (by rw [h])
    else .isFalse (fun hh => h (Except.error.inj hh))
  | .ok a, .ok b =>
    if h : a = b then .isTrue (by rw [h])
    else .isFalse (fun hh => h (Except.ok.inj hh))
  | .error _, .ok _ => .isFalse (fun hh => Except.noConfusion hh)
  | .ok _, .error _ => .isFalse (fun hh => Except.noConfusion hh)


/-- Every cache entry satisfies a key/bitmap predicate. -/
def LruInv (P : Nat → Bitmap → Prop) (s : LruState) : Prop :=
  ∀ it ∈ s.items, P it.key it.bm


/-- The invariant tying cache entries to denotations: every cached bitmap
is the denotation of some expression in `U` whose fingerprint is the
entry's key. -/
def CacheGood (hash : String → String → Nat) (idx : Index) (U : List Expr) :
    Nat → Bitmap → Prop := fun k bm =>
  ∃ e ∈ U, cacheKey hash e = k ∧ denote hash idx e = .ok bm


/-- The LRU cache with `GetSizeInBytes` modelled by cardinality and zero
per-entry overhead, for the concrete cache scenarios. -/
def demoLruOps : CacheOps LruState := lruCacheOps Finset.card 0

/-- The opened index over scenario 2. -/
def demoIdx2 : Index := openIndex (writeToStore (buildWriter demoHash demoRows2))

/-- The cache state after evaluating `(a="1") & (a="1")` on a warm-enabled
index: the composite bitmap `{0}` is cached under the fingerprint
`maskAnd`, because the two identical children cancel under XOR. -/
def demoWarmState : LruState :=
  (evalExpr demoHash demoLruOps demoIdx2
    (.and [.equal "a" "1", .equal "a" "1"]) (newLRUCache 1000)).2


instance : IsTrans (Nat × Nat) tempLE :=
  ⟨fun a b c hab hbc => by unfold tempLE at hab hbc ⊢; omega⟩

instance : IsTotal (Nat × Nat) tempLE :=
  ⟨fun a b => by unfold tempLE; omega⟩


/-! Fingerprint lemmas (claim C4). -/

theorem cacheKeyFold_eq_xorAll (hash : String → String → Nat) (k : Nat)
    (es : List Expr) :
    cacheKeyFold hash k es = k ^^^ xorAll (es.map fun e => rotl64 (cacheKey hash e)) := by
  induction es generalizing k with
  | nil => simp [cacheKeyFold, xorAll]
  | cons e es ih =>
    simp only [cacheKeyFold, List.map_cons, xorAll, ih, Nat.xor_assoc]

theorem xorAll_perm {l m : List Nat} (h : l.Perm m) : xorAll l = xorAll m := by
  induction h with
  | nil => rfl
  | cons x _ ih => simp [xorAll, ih]
  | swap x y l =>
    simp only [xorAll, ← Nat.xor_assoc]
    rw [Nat.xor_comm y x]
  | trans _ _ ih₁ ih₂ => exact ih₁.trans ih₂

theorem cacheKey_eq_of_childOrderEquiv (hash : String → String → Nat)
    {e₁ e₂ : Expr} (h : ChildOrderEquiv e₁ e₂) :
    cacheKey hash e₁ = cacheKey hash e₂ := by
  induction h with
  | refl e => rfl
  | trans _ _ ih₁ ih₂ => exact ih₁.trans ih₂
  | notCong _ ih => simp [cacheKey, ih]
  | andCong pre post _ ih =>
    simp [cacheKey, cacheKeyFold_eq_xorAll, ih]
  | orCong pre post _ ih =>
    simp [cacheKey, cacheKeyFold_eq_xorAll, ih]
  | andPerm hp =>
    simp only [cacheKey, cacheKeyFold_eq_xorAll]
    rw [xorAll_perm (hp.map _)]
  | orPerm hp =>
    simp only [cacheKey, cacheKeyFold_eq_xorAll]
    rw [xorAll_perm (hp.map _)]

/-! Association-list lemmas. -/

theorem alookup_aupdate_eq {β : Type} (k : α) (b : β) [DecidableEq α] :
    ∀ l : List (α × β), alookup k (aupdate k b l) =
      match alookup k l with
      | some _ => some b
      | none => none := by
  intro l
  induction l with
  | nil => simp [alookup, aupdate]
  | cons p rest ih =>
    by_cases h : k = p.1 <;> simp [alookup, aupdate, h, ih]

theorem alookup_aupdate_ne {β : Type} [DecidableEq α] (k c : α) (b : β)
    (hne : c ≠ k) : ∀ l : List (α × β), alookup c (aupdate k b l) = alookup c l := by
  intro l
  induction l with
  | nil => simp [aupdate]
  | cons p rest ih =>
    by_cases h : k = p.1
    · subst h
      simp [alookup, aupdate, hne]
    · simp only [aupdate, if_neg h, alookup]
      rw [ih]

theorem alookup_append_single {β : Type} [DecidableEq α] (c k : α) (b : β)
    (l : List (α × β)) :
    alookup c (l ++ [(k, b)]) =
      match alookup c l with
      | some v => some v
      | none => if c = k then some b else none := by
  induction l with
  | nil => simp [alookup]
  | cons p rest ih =>
    by_cases h : c = p.1 <;> simp [alookup, h, ih]

theorem alookup_addPosting (values : List (Nat × Bitmap)) (code0 row code : Nat) :
    alookup code (addPosting values code0 row) =
      if code = code0 then some (insert row ((alookup code0 values).getD ∅))
      else alookup code values := by
  unfold addPosting
  rcases h : alookup code0 values with _ | bm
  · rw [alookup_append_single]
    by_cases hc : code = code0
    · subst hc
      simp [h, LawfulSingleton.insert_emptyc_eq]
    · simp only [if_neg hc]
      rcases alookup code values with _ | v <;> simp
  · by_cases hc : code = code0
    · subst hc
      rw [alookup_aupdate_eq, h]
      simp
    · rw [alookup_aupdate_ne _ _ _ hc, if_neg hc]

/-! Characterization of the posting bitmaps accumulated by the in-memory
builder. -/

theorem foldl_addPair_nextRowID (hash : String → String → Nat) (rowID : Nat) :
    ∀ (row : Row) (w : IndexWriter),
      (row.foldl (addPair hash rowID) w).nextRowID = w.nextRowID := by
  intro row
  induction row with
  | nil => intro w; rfl
  | cons kv rest ih => intro w; rw [List.foldl_cons, ih]; rfl

/-! The schema interning step always returns `hash k v` as the code of the
pair it interned, because codes stored in the schema were computed by the
same function on their first occurrence.  We prove the invariant that the
schema only ever stores `hash`-computed codes. -/

theorem schemaAdd_code_eq (hash : String → String → Nat) (sch : Schema)
    (k v : String) (h : SchemaHashed hash sch) :
    (schemaAdd hash sch k v).2 = hash k v := by
  unfold schemaAdd
  rcases hk : alookup k sch.columns with _ | col
  · simp only [hk]
    unfold columnAdd
    simp [alookup]
  · simp only [hk]
    unfold columnAdd
    rcases hv : alookup v col.values with _ | code
    · simp only [hv]
    · simp only [hv]
      exact h k col hk v code hv

theorem schemaAdd_hashed (hash : String → String → Nat) (sch : Schema)
    (k v : String) (h : SchemaHashed hash sch) :
    SchemaHashed hash (schemaAdd hash sch k v).1 := by
  unfold schemaAdd
  rcases hk : alookup k sch.columns with _ | col
  · simp only [hk]
    unfold columnAdd
    simp only [alookup]
    intro k' col' hk' v' code' hv'
    rw [alookup_append_single] at hk'
    rcases hsk : alookup k' sch.columns with _ | colOld
    · rw [hsk] at hk'
      simp only at hk'
      by_cases hkk : k' = k
      · rw [if_pos hkk] at hk'
        cases hk'
        simp only [List.nil_append, alookup] at hv'
        by_cases hvv : v' = v
        · rw [if_pos hvv] at hv'
          cases hv'
          rw [hkk, hvv]
        · rw [if_neg hvv] at hv'
          cases hv'
      · rw [if_neg hkk] at hk'
        cases hk'
    · rw [hsk] at hk'
      simp only at hk'
      obtain rfl := Option.some.inj hk'
      exact h k' colOld hsk v' code' hv'
  · simp only [hk]
    unfold columnAdd
    rcases hv : alookup v col.values with _ | code
    · simp only [hv]
      intro k' col' hk' v' code' hv'
      by_cases hkk : k' = k
      · subst hkk
        rw [alookup_aupdate_eq, hk] at hk'
        simp only at hk'
        cases hk'
        rw [alookup_append_single] at hv'
        rcases hsv : alookup v' col.values with _ | codeOld
        · rw [hsv] at hv'
          simp only at hv'
          by_cases hvv : v' = v
          · rw [if_pos hvv] at hv'
            cases hv'
            rw [hvv]
          · rw [if_neg hvv] at hv'
            cases hv'
        · rw [hsv] at hv'
          simp only at hv'
          obtain rfl := Option.some.inj hv'
          exact h k' col hk v' codeOld hsv
      · rw [alookup_aupdate_ne _ _ _ hkk] at hk'
        exact h k' col' hk' v' code' hv'
    · simp only [hv]
      intro k' col' hk' v' code' hv'
      by_cases hkk : k' = k
      · subst hkk
        rw [alookup_aupdate_eq, hk] at hk'
        simp only at hk'
        cases hk'
        exact h k' col hk v' code' hv'
      · rw [alookup_aupdate_ne _ _ _ hkk] at hk'
        exact h k' col' hk' v' code' hv'

theorem foldl_addPair_values (hash : String → String → Nat) (rowID : Nat) :
    ∀ (row : Row) (w : IndexWriter), SchemaHashed hash w.schema →
      (SchemaHashed hash (row.foldl (addPair hash rowID) w).schema ∧
       ∀ code, alookup code (row.foldl (addPair hash rowID) w).values =
        if rowHasCode hash row code then
          some (insert rowID ((alookup code w.values).getD ∅))
        else alookup code w.values) := by
  intro row
  induction row with
  | nil =>
    intro w hw
    exact ⟨hw, fun code => by simp [rowHasCode]⟩
  | cons kv rest ih =>
    intro w hw
    have hcode := schemaAdd_code_eq hash w.schema kv.1 kv.2 hw
    have hstep : SchemaHashed hash (addPair hash rowID w kv).schema :=
      schemaAdd_hashed hash w.schema kv.1 kv.2 hw
    obtain ⟨hsch', hvals⟩ := ih (addPair hash rowID w kv) hstep
    refine ⟨hsch', fun code => ?_⟩
    rw [List.foldl_cons, hvals code]
    have hv1 : (addPair hash rowID w kv).values =
        addPosting w.values (hash kv.1 kv.2) rowID := by
      unfold addPair
      rw [hcode]
    rw [hv1, alookup_addPosting]
    by_cases hc : code = hash kv.1 kv.2
    · subst hc
      rw [if_pos rfl]
      have hcons : rowHasCode hash (kv :: rest) (hash kv.1 kv.2) = true := by
        simp [rowHasCode]
      rw [hcons, if_pos rfl]
      by_cases hr : rowHasCode hash rest (hash kv.1 kv.2) = true
      · rw [if_pos hr]
        simp
      · rw [if_neg hr]
    · rw [if_neg hc]
      have hcons : rowHasCode hash (kv :: rest) code = rowHasCode hash rest code := by
        simp only [rowHasCode, List.any_cons]
        rw [decide_eq_false (fun h : hash kv.1 kv.2 = code => hc h.symm), Bool.false_or]
      rw [hcons]

theorem rowHasCode_cons (hash : String → String → Nat) (kv : String × String)
    (rest : Row) (code : Nat) :
    rowHasCode hash (kv :: rest) code =
      (decide (hash kv.1 kv.2 = code) || rowHasCode hash rest code) := by
  simp [rowHasCode]

theorem buildWriter_eq_foldl (hash : String → String → Nat)
    (rows : List Row) :
    buildWriter hash rows = rows.foldl (buildStep hash) emptyIndexWriter := rfl

theorem buildStep_nextRowID (hash : String → String → Nat) (w : IndexWriter)
    (row : Row) : (buildStep hash w row).nextRowID = w.nextRowID + 1 := by
  simp [buildStep, addRow]

theorem buildStep_schema (hash : String → String → Nat) (w : IndexWriter)
    (row : Row) :
    (buildStep hash w row).schema = (row.foldl (addPair hash w.nextRowID) w).schema := by
  simp [buildStep, addRow]

theorem buildStep_values (hash : String → String → Nat) (w : IndexWriter)
    (row : Row) :
    (buildStep hash w row).values = (row.foldl (addPair hash w.nextRowID) w).values := by
  simp [buildStep, addRow]

theorem foldl_buildStep_nextRowID (hash : String → String → Nat) :
    ∀ (rest : List Row) (w : IndexWriter),
      (rest.foldl (buildStep hash) w).nextRowID = w.nextRowID + rest.length := by
  intro rest
  induction rest with
  | nil => intro w; simp
  | cons row rest ih =>
    intro w
    rw [List.foldl_cons, ih, buildStep_nextRowID]
    simp [Nat.add_assoc, Nat.add_comm 1 rest.length]

theorem foldl_buildStep_schemaHashed (hash : String → String → Nat) :
    ∀ (rest : List Row) (w : IndexWriter), SchemaHashed hash w.schema →
      SchemaHashed hash (rest.foldl (buildStep hash) w).schema := by
  intro rest
  induction rest with
  | nil => intro w hw; exact hw
  | cons row rest ih =>
    intro w hw
    rw [List.foldl_cons]
    apply ih
    rw [buildStep_schema]
    exact (foldl_addPair_values hash w.nextRowID row w hw).1

theorem foldl_buildStep_mem (hash : String → String → Nat) :
    ∀ (rest : List Row) (w : IndexWriter), SchemaHashed hash w.schema →
      ∀ (code r : Nat),
      (r ∈ (alookup code ((rest.foldl (buildStep hash) w).values)).getD ∅ ↔
        r ∈ (alookup code w.values).getD ∅ ∨
        ∃ j, j < rest.length ∧ r = w.nextRowID + j ∧
          rowHasCode hash (rest.getD j []) code = true) := by
  intro rest
  induction rest with
  | nil =>
    intro w _ code r
    simp
  | cons row rest ih =>
    intro w hw code r
    rw [List.foldl_cons]
    have hw' : SchemaHashed hash (buildStep hash w row).schema := by
      rw [buildStep_schema]
      exact (foldl_addPair_values hash w.nextRowID row w hw).1
    rw [ih (buildStep hash w row) hw' code r]
    have hlook : alookup code (buildStep hash w row).values =
        if rowHasCode hash row code then
          some (insert w.nextRowID ((alookup code w.values).getD ∅))
        else alookup code w.values := by
      rw [buildStep_values]
      exact (foldl_addPair_values hash w.nextRowID row w hw).2 code
    rw [hlook, buildStep_nextRowID]
    simp only [List.length_cons]
    constructor
    · rintro (hmem | ⟨j, hj, hr, hcode⟩)
      · by_cases hhas : rowHasCode hash row code = true
        · rw [if_pos hhas] at hmem
          simp only [Option.getD_some, Finset.mem_insert] at hmem
          rcases hmem with rfl | hmem
          · exact Or.inr ⟨0, by omega, by omega, by simpa using hhas⟩
          · exact Or.inl hmem
        · rw [if_neg hhas] at hmem
          exact Or.inl hmem
      · exact Or.inr ⟨j + 1, by omega, by omega, by simpa using hcode⟩
    · rintro (hmem | ⟨j, hj, hr, hcode⟩)
      · left
        by_cases hhas : rowHasCode hash row code = true
        · rw [if_pos hhas]
          simp only [Option.getD_some, Finset.mem_insert]
          exact Or.inr hmem
        · rw [if_neg hhas]
          exact hmem
      · rcases j with _ | j
        · left
          simp only [List.getD_cons_zero] at hcode
          rw [if_pos hcode]
          simp only [Option.getD_some, Finset.mem_insert]
          exact Or.inl (by omega)
        · right
          exact ⟨j, by omega, by omega, by simpa using hcode⟩

theorem foldl_buildStep_isSome (hash : String → String → Nat) :
    ∀ (rest : List Row) (w : IndexWriter), SchemaHashed hash w.schema →
      ∀ (code : Nat),
      ((alookup code ((rest.foldl (buildStep hash) w).values)).isSome ↔
        (alookup code w.values).isSome ∨ ∃ row ∈ rest, rowHasCode hash row code = true) := by
  intro rest
  induction rest with
  | nil =>
    intro w _ code
    simp
  | cons row rest ih =>
    intro w hw code
    rw [List.foldl_cons]
    have hw' : SchemaHashed hash (buildStep hash w row).schema := by
      rw [buildStep_schema]
      exact (foldl_addPair_values hash w.nextRowID row w hw).1
    rw [ih (buildStep hash w row) hw' code]
    have hlook : alookup code (buildStep hash w row).values =
        if rowHasCode hash row code then
          some (insert w.nextRowID ((alookup code w.values).getD ∅))
        else alookup code w.values := by
      rw [buildStep_values]
      exact (foldl_addPair_values hash w.nextRowID row w hw).2 code
    rw [hlook]
    by_cases hhas : rowHasCode hash row code = true
    · rw [if_pos hhas]
      simp only [Option.isSome_some]
      constructor
      · intro _
        exact Or.inr ⟨row, List.mem_cons_self row rest, hhas⟩
      · intro _
        exact Or.inl (by trivial)
    · rw [if_neg hhas]
      constructor
      · rintro (hs | ⟨row', hrow', hcode'⟩)
        · exact Or.inl hs
        · exact Or.inr ⟨row', List.mem_cons_of_mem row hrow', hcode'⟩
      · rintro (hs | ⟨row', hrow', hcode'⟩)
        · exact Or.inl hs
        · rcases List.mem_cons.mp hrow' with rfl | hrow'
          · exact absurd hcode' hhas
          · exact Or.inr ⟨row', hrow', hcode'⟩

theorem emptyIndexWriter_schemaHashed (hash : String → String → Nat) :
    SchemaHashed hash emptyIndexWriter.schema := by
  intro k col hk
  simp [emptyIndexWriter, alookup] at hk

theorem buildWriter_nextRowID (hash : String → String → Nat) (rows : List Row) :
    (buildWriter hash rows).nextRowID = rows.length := by
  rw [buildWriter_eq_foldl, foldl_buildStep_nextRowID]
  simp [emptyIndexWriter]

theorem buildWriter_schemaHashed (hash : String → String → Nat) (rows : List Row) :
    SchemaHashed hash (buildWriter hash rows).schema := by
  rw [buildWriter_eq_foldl]
  exact foldl_buildStep_schemaHashed hash rows emptyIndexWriter
    (emptyIndexWriter_schemaHashed hash)

theorem buildWriter_mem (hash : String → String → Nat) (rows : List Row)
    (code r : Nat) :
    r ∈ (alookup code (buildWriter hash rows).values).getD ∅ ↔
      r < rows.length ∧ rowHasCode hash (rows.getD r []) code = true := by
  rw [buildWriter_eq_foldl,
    foldl_buildStep_mem hash rows emptyIndexWriter (emptyIndexWriter_schemaHashed hash)]
  simp only [emptyIndexWriter, alookup, Option.getD_none, Finset.not_mem_empty, false_or]
  constructor
  · rintro ⟨j, hj, rfl, hcode⟩
    exact ⟨by omega, by simpa using hcode⟩
  · rintro ⟨hr, hcode⟩
    exact ⟨r, hr, by omega, hcode⟩

theorem buildWriter_isSome (hash : String → String → Nat) (rows : List Row)
    (code : Nat) :
    (alookup code (buildWriter hash rows).values).isSome ↔
      ∃ row ∈ rows, rowHasCode hash row code = true := by
  rw [buildWriter_eq_foldl,
    foldl_buildStep_isSome hash rows emptyIndexWriter (emptyIndexWriter_schemaHashed hash)]
  simp [emptyIndexWriter, alookup]

/-! Bitmap-operation lemmas. -/

theorem mem_flipRange (bm : Bitmap) (n r : Nat) :
    r ∈ flipRange bm n ↔ ((r < n ∧ r ∉ bm) ∨ (r ∈ bm ∧ ¬ r < n)) := by
  simp [flipRange, Finset.mem_union, Finset.mem_sdiff, Finset.mem_range]

theorem foldl_inter_assoc (bs : List Bitmap) :
    ∀ (a b : Bitmap), bs.foldl (· ∩ ·) (a ∩ b) = a ∩ bs.foldl (· ∩ ·) b := by
  induction bs with
  | nil => intro a b; rfl
  | cons x xs ih =>
    intro a b
    rw [List.foldl_cons, List.foldl_cons, Finset.inter_assoc, ih]

theorem fastAnd_cons (b : Bitmap) (bs : List Bitmap) (h : bs ≠ []) :
    fastAnd (b :: bs) = b ∩ fastAnd bs := by
  rcases bs with _ | ⟨x, xs⟩
  · exact absurd rfl h
  · show (x :: xs).foldl (· ∩ ·) b = b ∩ (xs.foldl (· ∩ ·) x)
    rw [List.foldl_cons, foldl_inter_assoc]

theorem fastAnd_subset_head (b : Bitmap) (bs : List Bitmap) :
    fastAnd (b :: bs) ⊆ b := by
  rcases bs with _ | ⟨x, xs⟩
  · exact subset_rfl
  · rw [fastAnd_cons b (x :: xs) (by simp)]
    exact Finset.inter_subset_left

theorem foldl_union_assoc (bs : List Bitmap) :
    ∀ (a b : Bitmap), bs.foldl (· ∪ ·) (a ∪ b) = a ∪ bs.foldl (· ∪ ·) b := by
  induction bs with
  | nil => intro a b; rfl
  | cons x xs ih =>
    intro a b
    rw [List.foldl_cons, List.foldl_cons, Finset.union_assoc, ih]

theorem fastOr_cons (b : Bitmap) (bs : List Bitmap) :
    fastOr (b :: bs) = b ∪ fastOr bs := by
  show bs.foldl (· ∪ ·) (∅ ∪ b) = b ∪ bs.foldl (· ∪ ·) ∅
  rw [Finset.empty_union]
  calc bs.foldl (· ∪ ·) b = bs.foldl (· ∪ ·) (b ∪ ∅) := by rw [Finset.union_empty]
    _ = b ∪ bs.foldl (· ∪ ·) ∅ := foldl_union_assoc bs b ∅

/-! With the null cache, `eval` computes the pure denotation. -/

theorem nullGet (s : Unit) (k : Nat) : nullCacheOps.get s k = (none, s) := rfl

theorem nullPut (s : Unit) (k : Nat) (bm : Bitmap) : nullCacheOps.put s k bm = s := rfl

mutual

theorem evalExpr_nullCache (hash : String → String → Nat) (idx : Index) :
    (e : Expr) → evalExpr hash nullCacheOps idx e () = (denote hash idx e, ())
  | .equal c v => by
    rcases h : alookup c idx.schema.columns with _ | col
    · simp [evalExpr, denote, h]
    · simp [evalExpr, denote, h, nullCacheOps]
  | .not e => by
    have ih := evalExpr_nullCache hash idx e
    simp only [evalExpr, nullGet, nullPut, ih, denote]
    rcases denote hash idx e with m | bm <;> rfl
  | .and es => by
    have ih := evalList_nullCache hash idx es
    simp only [evalExpr, nullGet, nullPut, ih, denote]
    rcases denoteList hash idx es with m | bms <;> rfl
  | .or es => by
    have ih := evalList_nullCache hash idx es
    simp only [evalExpr, nullGet, nullPut, ih, denote]
    rcases denoteList hash idx es with m | bms <;> rfl

theorem evalList_nullCache (hash : String → String → Nat) (idx : Index) :
    (es : List Expr) →
      evalList hash nullCacheOps idx es () = (denoteList hash idx es, ())
  | [] => rfl
  | e :: es => by
    have ih := evalExpr_nullCache hash idx e
    have ihs := evalList_nullCache hash idx es
    simp only [evalList, ih, ihs, denoteList]
    rcases denote hash idx e with m | bm
    · rfl
    · rcases denoteList hash idx es with m | bms <;> rfl

end

/-! The eval/satisfaction correspondence (claim C1). -/

theorem openIndex_schema (st : Store) : (openIndex st).schema = st.schema := rfl

theorem openIndex_nextRowID (st : Store) :
    (openIndex st).nextRowID = st.nextRowID := rfl

theorem writeToStore_schema (w : IndexWriter) :
    (writeToStore w).schema = w.schema := rfl

theorem writeToStore_nextRowID (w : IndexWriter) :
    (writeToStore w).nextRowID = w.nextRowID := rfl

theorem writeToStore_postings (w : IndexWriter) :
    (writeToStore w).postings = w.values := rfl

theorem getD_mem {α : Type} : ∀ (l : List α) (r : Nat) (d : α),
    r < l.length → l.getD r d ∈ l
  | a :: l, 0, _, _ => List.mem_cons_self a l
  | a :: l, r + 1, d, h =>
    List.mem_cons_of_mem a (getD_mem l r d (by simpa using h))
  | [], _, _, h => absurd h (by simp)

theorem satB_not (rows : List Row) (n r : Nat) (e : Expr) :
    satB rows n r (.not e) = true ↔ (r < n ∧ ¬ satB rows n r e = true) := by
  simp [satB]

theorem mem_fastAnd_of_forall₂ {rows : List Row} {n : Nat}
    {es : List Expr} {bms : List Bitmap}
    (h : List.Forall₂ (fun e bm => ∀ r, r ∈ bm ↔ satB rows n r e = true) es bms) :
    es ≠ [] → ∀ r, (r ∈ fastAnd bms ↔ satAll rows n r es = true) := by
  induction h with
  | nil => intro hne; exact absurd rfl hne
  | @cons e bm es' bms' hP htail ih =>
    intro _ r
    cases htail with
    | nil => simp [fastAnd, satAll, hP r]
    | @cons e2 bm2 es2 bms2 hP2 htail2 =>
      rw [fastAnd_cons _ _ (by simp), Finset.mem_inter, hP r,
        ih (by simp) r]
      simp [satAll, Bool.and_eq_true]

theorem mem_fastOr_of_forall₂ {rows : List Row} {n : Nat}
    {es : List Expr} {bms : List Bitmap}
    (h : List.Forall₂ (fun e bm => ∀ r, r ∈ bm ↔ satB rows n r e = true) es bms) :
    ∀ r, (r ∈ fastOr bms ↔ satAny rows n r es = true) := by
  induction h with
  | nil => intro r; simp [fastOr, satAny]
  | @cons e bm es' bms' hP htail ih =>
    intro r
    rw [fastOr_cons, Finset.mem_union, hP r, ih r]
    simp [satAny, Bool.or_eq_true]

theorem forall₂_mem_right {α β : Type} {P : α → β → Prop} :
    ∀ {es : List α} {bms : List β}, List.Forall₂ P es bms →
      ∀ b ∈ bms, ∃ e ∈ es, P e b := by
  intro es bms h
  induction h with
  | nil => intro b hb; simp at hb
  | @cons e bm es' bms' hP htail ih =>
    intro b hb
    rcases List.mem_cons.mp hb with rfl | hb
    · exact ⟨e, List.mem_cons_self _ _, hP⟩
    · obtain ⟨e', he', hPe⟩ := ih b hb
      exact ⟨e', List.mem_cons_of_mem _ he', hPe⟩

theorem fastOr_subset {t : Bitmap} :
    ∀ {bms : List Bitmap}, (∀ b ∈ bms, b ⊆ t) → fastOr bms ⊆ t := by
  intro bms
  induction bms with
  | nil => intro _; simp [fastOr]
  | cons b bs ih =>
    intro h
    rw [fastOr_cons]
    exact Finset.union_subset (h b (List.mem_cons_self b bs))
      (ih fun x hx => h x (List.mem_cons_of_mem _ hx))

mutual

/-- A bitmap computed by the pure denotation over a freshly built, written
and reopened index agrees with the classical boolean satisfaction, provided
the value codes of the pairs involved (`S` covers the expression's pairs)
do not collide. -/
theorem denote_sat (hash : String → String → Nat) (rows : List Row)
    (S : List (String × String))
    (Hinj : ∀ p ∈ rows.flatten, ∀ q, (q ∈ rows.flatten ∨ q ∈ S) →
      hash p.1 p.2 = hash q.1 q.2 → p = q) :
    (E : Expr) → exprPairs E ⊆ S → wellFormed E = true →
    columnsKnown (buildWriter hash rows).schema E = true →
    ∃ bm : Bitmap,
      denote hash (openIndex (writeToStore (buildWriter hash rows))) E = .ok bm ∧
      (∀ r, r ∈ bm ↔ satB rows rows.length r E = true) ∧
      bm ⊆ Finset.range rows.length
  | .equal c v, hS, _, hcols => by
    have hcv : (c, v) ∈ S := hS (by simp [exprPairs])
    simp only [columnsKnown] at hcols
    obtain ⟨col, hcol⟩ := Option.isSome_iff_exists.mp hcols
    have hmemchar : ∀ r,
        r ∈ (alookup (hash c v) (buildWriter hash rows).values).getD ∅ ↔
          satB rows rows.length r (.equal c v) = true := by
      intro r
      rw [buildWriter_mem]
      simp only [satB, decide_eq_true_eq]
      constructor
      · rintro ⟨hr, hcode⟩
        rw [rowHasCode, List.any_eq_true] at hcode
        obtain ⟨kv, hkv, heq⟩ := hcode
        rw [decide_eq_true_eq] at heq
        have hkvJoin : kv ∈ rows.flatten :=
          List.mem_flatten.mpr ⟨rows.getD r [], getD_mem rows r [] hr, hkv⟩
        have hEq := Hinj kv hkvJoin (c, v) (Or.inr hcv) heq
        rw [← hEq]
        exact hkv
      · intro hmem
        have hr : r < rows.length := by
          by_contra hge
          rw [List.getD_eq_default] at hmem
          · exact absurd hmem (List.not_mem_nil _)
          · omega
        refine ⟨hr, ?_⟩
        rw [rowHasCode, List.any_eq_true]
        exact ⟨(c, v), hmem, by simp⟩
    refine ⟨(alookup (hash c v) (buildWriter hash rows).values).getD ∅, ?_,
      hmemchar, ?_⟩
    · simp only [denote, openIndex_schema, writeToStore_schema, hcol]
      congr 1
      rcases hlook : alookup (hash c v) (buildWriter hash rows).values with _ | bm
      · simp [openIndex, writeToStore, hlook]
      · simp [openIndex, writeToStore, hlook]
    · intro r hr
      rw [buildWriter_mem] at hr
      exact Finset.mem_range.mpr hr.1
  | .not e, hS, hwf, hcols => by
    obtain ⟨bm, hd, hmem, hsub⟩ :=
      denote_sat hash rows S Hinj e hS hwf hcols
    have hn : (openIndex (writeToStore (buildWriter hash rows))).nextRowID =
        rows.length := by
      rw [openIndex_nextRowID, writeToStore_nextRowID, buildWriter_nextRowID]
    refine ⟨flipRange bm rows.length, ?_, ?_, ?_⟩
    · simp only [denote, hd, hn]
    · intro r
      rw [mem_flipRange, satB_not]
      constructor
      · rintro (⟨hr, hnot⟩ | ⟨hin, hge⟩)
        · exact ⟨hr, fun hh => hnot ((hmem r).mpr hh)⟩
        · exact absurd (Finset.mem_range.mp (hsub hin)) hge
      · rintro ⟨hr, hnsat⟩
        exact Or.inl ⟨hr, fun hin => hnsat ((hmem r).mp hin)⟩
    · intro r hr
      rw [mem_flipRange] at hr
      rcases hr with ⟨hr, _⟩ | ⟨hin, hge⟩
      · exact Finset.mem_range.mpr hr
      · exact absurd (Finset.mem_range.mp (hsub hin)) hge
  | .and es, hS, hwf, hcols => by
    simp only [wellFormed, Bool.and_eq_true] at hwf
    obtain ⟨hne0, hwfl⟩ := hwf
    have hne : es ≠ [] := by
      cases es
      · simp at hne0
      · simp
    obtain ⟨bms, hd, hF⟩ := denoteList_sat hash rows S Hinj es hS hwfl hcols
    refine ⟨fastAnd bms, ?_, ?_, ?_⟩
    · simp only [denote, hd]
    · intro r
      rw [mem_fastAnd_of_forall₂ (hF.imp fun _ _ h => h.1) hne r]
      rfl
    · cases hF with
      | nil => exact absurd rfl hne
      | cons h1 htl => exact (fastAnd_subset_head _ _).trans h1.2
  | .or es, hS, hwf, hcols => by
    simp only [wellFormed, Bool.and_eq_true] at hwf
    obtain ⟨_, hwfl⟩ := hwf
    obtain ⟨bms, hd, hF⟩ := denoteList_sat hash rows S Hinj es hS hwfl hcols
    refine ⟨fastOr bms, ?_, ?_, ?_⟩
    · simp only [denote, hd]
    · intro r
      rw [mem_fastOr_of_forall₂ (hF.imp fun _ _ h => h.1) r]
      rfl
    · refine fastOr_subset ?_
      intro b hb
      obtain ⟨e, -, hP⟩ := forall₂_mem_right hF b hb
      exact hP.2

/-- List version of `denote_sat`. -/
theorem denoteList_sat (hash : String → String → Nat) (rows : List Row)
    (S : List (String × String))
    (Hinj : ∀ p ∈ rows.flatten, ∀ q, (q ∈ rows.flatten ∨ q ∈ S) →
      hash p.1 p.2 = hash q.1 q.2 → p = q) :
    (es : List Expr) → exprPairsList es ⊆ S → wellFormedList es = true →
    columnsKnownList (buildWriter hash rows).schema es = true →
    ∃ bms : List Bitmap,
      denoteList hash (openIndex (writeToStore (buildWriter hash rows))) es =
        .ok bms ∧
      List.Forall₂ (fun e bm =>
        (∀ r, r ∈ bm ↔ satB rows rows.length r e = true) ∧
        bm ⊆ Finset.range rows.length) es bms
  | [], _, _, _ => ⟨[], rfl, List.Forall₂.nil⟩
  | e :: es, hS, hwf, hcols => by
    simp only [exprPairsList] at hS
    obtain ⟨hS1, hS2⟩ := List.append_subset.mp hS
    simp only [wellFormedList, Bool.and_eq_true] at hwf
    simp only [columnsKnownList, Bool.and_eq_true] at hcols
    obtain ⟨bm, hd, hmem, hsub⟩ :=
      denote_sat hash rows S Hinj e hS1 hwf.1 hcols.1
    obtain ⟨bms, hds, hF⟩ :=
      denoteList_sat hash rows S Hinj es hS2 hwf.2 hcols.2
    exact ⟨bm :: bms, by simp only [denoteList, hd, hds],
      List.Forall₂.cons ⟨hmem, hsub⟩ hF⟩

end

/-- C1.  For an index built by adding rows through `IndexWriter.AddRow`,
written to a store and opened again, evaluating any expression built from
`ExprEqual`/`ExprNot`/`ExprAnd`/`ExprOr` (each `And`/`Or` with the spec's
≥ 1 children) over columns present in the schema returns a bitmap that
contains a row id `r` iff row `r` satisfies the expression under the
classical boolean interpretation (`Eq` true iff the row had that column
equal to that value; `Not` the complement within `[0, rowCount)`; `And`
intersection; `Or` union) — provided the value codes of the pairs of the
rows and of the expression do not collide, which the source assumes of its
64-bit hash. -/
theorem claim_C1_eval_matches_classical_interpretation
    (hash : String → String → Nat) (rows : List Row) (E : Expr)
    (Hinj : ∀ p ∈ rows.flatten, ∀ q ∈ rows.flatten ++ exprPairs E,
      hash p.1 p.2 = hash q.1 q.2 → p = q)
    (hwf : wellFormed E = true)
    (hcols : columnsKnown (buildWriter hash rows).schema E = true) :
    ∃ bm : Bitmap,
      evalExpr hash nullCacheOps
        (openIndex (writeToStore (buildWriter hash rows))) E () = (.ok bm, ()) ∧
      ∀ r : ℕ, r ∈ bm ↔ satB rows rows.length r E = true := by
  obtain ⟨bm, hd, hmem, -⟩ :=
    denote_sat hash rows (exprPairs E)
      (fun p hp q hq heq => Hinj p hp q (List.mem_append.mpr hq) heq)
      E (fun p hp => hp) hwf hcols
  refine ⟨bm, ?_, hmem⟩
  rw [evalExpr_nullCache, hd]

/-- Witness for C1 at scenario 2 with the query `(a="1")|(a="2")`. -/
theorem claim_C1_eval_matches_classical_interpretation_witness :
    ∃ bm : Bitmap,
      evalExpr demoHash nullCacheOps
        (openIndex (writeToStore (buildWriter demoHash demoRows2)))
        (.or [.equal "a" "1", .equal "a" "2"]) () = (.ok bm, ()) ∧
      ∀ r : ℕ, r ∈ bm ↔
        satB demoRows2 demoRows2.length r (.or [.equal "a" "1", .equal "a" "2"]) = true :=
  claim_C1_eval_matches_classical_interpretation demoHash demoRows2
    (.or [.equal "a" "1", .equal "a" "2"])
    (by decide) (by decide) (by decide)

/-- C4.  Expressions that differ only by the order of children in
`And`/`Or` nodes, at any depth, have equal 64-bit fingerprints. -/
theorem claim_C4_fingerprint_child_order_invariant
    (hash : String → String → Nat) {e₁ e₂ : Expr}
    (h : ChildOrderEquiv e₁ e₂) :
    cacheKey hash e₁ = cacheKey hash e₂ :=
  cacheKey_eq_of_childOrderEquiv hash h

/-- Witness for C4: swapping the two conjuncts of `(a="1") & (b="2")`
keeps the fingerprint. -/
theorem claim_C4_fingerprint_child_order_invariant_witness :
    cacheKey demoHash (.and [.equal "a" "1", .equal "b" "2"]) =
      cacheKey demoHash (.and [.equal "b" "2", .equal "a" "1"]) :=
  claim_C4_fingerprint_child_order_invariant demoHash
    (ChildOrderEquiv.andPerm
      (List.Perm.swap (Expr.equal "b" "2") (Expr.equal "a" "1") []))

/-! Claims C10 and C2. -/

theorem denote_equal_ok (hash : String → String → Nat) (rows : List Row)
    (c v : String)
    (hcol : (alookup c (buildWriter hash rows).schema.columns).isSome = true) :
    denote hash (openIndex (writeToStore (buildWriter hash rows))) (.equal c v) =
      .ok ((alookup (hash c v) (buildWriter hash rows).values).getD ∅) := by
  obtain ⟨col, hcol⟩ := Option.isSome_iff_exists.mp hcol
  simp only [denote, openIndex_schema, writeToStore_schema, hcol]
  congr 1
  rcases hlook : alookup (hash c v) (buildWriter hash rows).values with _ | bm
  · simp [openIndex, writeToStore, hlook]
  · simp [openIndex, writeToStore, hlook]

/-- C10.  `AddRow` returns the current `nextRowID` and increments it by
exactly one whatever the field map contains, the empty map included; a
row added with an empty map still occupies its row id, is included in the
persisted row count, is counted by `Not` expressions (which flip over
`[0, nextRowID)`), and matches no `Eq` expression. -/
theorem claim_C10_addRow_increment_and_empty_row
    (hash : String → String → Nat) :
    (∀ (w : IndexWriter) (row : Row),
      (addRow hash w row).1 = w.nextRowID ∧
      (addRow hash w row).2.nextRowID = w.nextRowID + 1) ∧
    (∀ (rows : List Row) (i : Nat), i < rows.length → rows.getD i [] = [] →
      (writeToStore (buildWriter hash rows)).nextRowID = rows.length ∧
      ∀ (c v : String),
        (alookup c (buildWriter hash rows).schema.columns).isSome = true →
        ∃ bmEq bmNot : Bitmap,
          evalExpr hash nullCacheOps
            (openIndex (writeToStore (buildWriter hash rows))) (.equal c v) () =
            (.ok bmEq, ()) ∧ i ∉ bmEq ∧
          evalExpr hash nullCacheOps
            (openIndex (writeToStore (buildWriter hash rows)))
            (.not (.equal c v)) () = (.ok bmNot, ()) ∧ i ∈ bmNot) := by
  constructor
  · intro w row
    exact ⟨rfl, by simp [addRow]⟩
  · intro rows i hi hemp
    refine ⟨by rw [writeToStore_nextRowID, buildWriter_nextRowID], ?_⟩
    intro c v hcol
    have hnotin : i ∉ (alookup (hash c v) (buildWriter hash rows).values).getD ∅ := by
      rw [buildWriter_mem, hemp]
      simp [rowHasCode]
    have hn : (openIndex (writeToStore (buildWriter hash rows))).nextRowID =
        rows.length := by
      rw [openIndex_nextRowID, writeToStore_nextRowID, buildWriter_nextRowID]
    refine ⟨(alookup (hash c v) (buildWriter hash rows).values).getD ∅,
      flipRange ((alookup (hash c v) (buildWriter hash rows).values).getD ∅)
        rows.length, ?_, hnotin, ?_, ?_⟩
    · rw [evalExpr_nullCache, denote_equal_ok hash rows c v hcol]
    · rw [evalExpr_nullCache]
      obtain ⟨col, hc⟩ := Option.isSome_iff_exists.mp hcol
      simp only [denote, openIndex_schema, writeToStore_schema, hc, hn]
      rcases hlook : alookup (hash c v) (buildWriter hash rows).values with _ | bm <;>
        simp [openIndex, writeToStore, hlook]
    · rw [mem_flipRange]
      exact Or.inl ⟨hi, hnotin⟩

/-- Witness for C10: the second row of `[[("a","1")], []]` is empty; it is
persisted, excluded from `a="1"` and counted by `^ a="1"`. -/
theorem claim_C10_addRow_increment_and_empty_row_witness :
    ((addRow demoHash emptyIndexWriter []).1 = emptyIndexWriter.nextRowID ∧
     (addRow demoHash emptyIndexWriter []).2.nextRowID =
       emptyIndexWriter.nextRowID + 1) ∧
    ((writeToStore (buildWriter demoHash [[("a", "1")], []])).nextRowID =
       [[("a", "1")], []].length ∧
     ∃ bmEq bmNot : Bitmap,
       evalExpr demoHash nullCacheOps
         (openIndex (writeToStore (buildWriter demoHash [[("a", "1")], []])))
         (.equal "a" "1") () = (.ok bmEq, ()) ∧ 1 ∉ bmEq ∧
       evalExpr demoHash nullCacheOps
         (openIndex (writeToStore (buildWriter demoHash [[("a", "1")], []])))
         (.not (.equal "a" "1")) () = (.ok bmNot, ()) ∧ 1 ∈ bmNot) :=
  ⟨(claim_C10_addRow_increment_and_empty_row demoHash).1 emptyIndexWriter [],
   ⟨((claim_C10_addRow_increment_and_empty_row demoHash).2 [[("a", "1")], []] 1
      (by decide) (by decide)).1,
    ((claim_C10_addRow_increment_and_empty_row demoHash).2 [[("a", "1")], []] 1
      (by decide) (by decide)).2 "a" "1" (by decide)⟩⟩

/-- Counterexample to C2: the store read fails, yet `ExprEqual.eval`
returns success with the empty bitmap — the error is silently converted
into an empty result instead of being propagated. -/
theorem claim_C2_counterexample :
    failingIndex.getCol (demoHash "a" "1") = .error () ∧
    evalExpr demoHash nullCacheOps failingIndex (.equal "a" "1") () =
      (.ok ∅, ()) := by
  constructor
  · rfl
  · rfl

/-- C2 as amended.  A column getter failure is never propagated by the
evaluator: `ExprEqual.eval` coalesces it — exactly like a missing
posting — into the empty bitmap and returns success, and the group-by
expansion skips a value whose posting read fails. -/
theorem claim_C2_amended_store_read_failure_swallowed
    (hash : String → String → Nat) (idx : Index) (c v : String)
    (hcol : (alookup c idx.schema.columns).isSome = true)
    (herr : idx.getCol (hash c v) = .error ()) :
    evalExpr hash nullCacheOps idx (.equal c v) () = (.ok ∅, ()) ∧
    ∀ (rg : ResultGroupAcc) (colName : String) (gv : GroupByValue)
      (rest : List GroupByValue), idx.getCol gv.idx = .error () →
      expandValues idx rg colName (gv :: rest) = expandValues idx rg colName rest := by
  constructor
  · obtain ⟨col, hc⟩ := Option.isSome_iff_exists.mp hcol
    simp [evalExpr, hc, nullCacheOps, herr]
  · intro rg colName gv rest herr2
    simp [expandValues, herr2]

/-- Witness for the amended C2 at the failing index. -/
theorem claim_C2_amended_store_read_failure_swallowed_witness :
    evalExpr demoHash nullCacheOps failingIndex (.equal "a" "1") () =
      (.ok ∅, ()) ∧
    ∀ (rg : ResultGroupAcc) (colName : String) (gv : GroupByValue)
      (rest : List GroupByValue), failingIndex.getCol gv.idx = .error () →
      expandValues failingIndex rg colName (gv :: rest) =
        expandValues failingIndex rg colName rest :=
  claim_C2_amended_store_read_failure_swallowed demoHash failingIndex "a" "1"
    (by decide) rfl

/-! Claim C3: the LRU size bound. -/

theorem find?_sum (f : LruItem → Nat) (p : LruItem → Bool) :
    ∀ (l : List LruItem) (it : LruItem), l.find? p = some it →
      (l.map f).sum = f it + ((l.eraseP p).map f).sum := by
  intro l
  induction l with
  | nil => intro it h; simp at h
  | cons a rest ih =>
    intro it h
    by_cases hpa : p a = true
    · rw [List.find?_cons_of_pos _ hpa] at h
      obtain rfl := Option.some.inj h
      rw [List.eraseP_cons_of_pos hpa]
      simp
    · rw [List.find?_cons_of_neg _ hpa] at h
      rw [List.eraseP_cons_of_neg hpa]
      simp only [List.map_cons, List.sum_cons, ih it h]
      omega

theorem lruEvictRev_spec (maxSize overhead : Nat) :
    ∀ (l : List LruItem) (cur : Nat),
      cur = (l.map (lruAcct overhead)).sum →
      (lruEvictRev maxSize overhead l cur).2 =
        ((lruEvictRev maxSize overhead l cur).1.map (lruAcct overhead)).sum ∧
      (lruEvictRev maxSize overhead l cur).2 ≤ maxSize := by
  intro l
  induction l with
  | nil =>
    intro cur h
    simp only [List.map_nil, List.sum_nil] at h
    subst h
    exact ⟨by simp [lruEvictRev], by simp [lruEvictRev]⟩
  | cons it rest ih =>
    intro cur h
    simp only [lruEvictRev]
    by_cases hlt : maxSize < cur
    · rw [if_pos hlt]
      apply ih
      simp only [List.map_cons, List.sum_cons, lruAcct] at h ⊢
      omega
    · rw [if_neg hlt]
      exact ⟨h, by omega⟩

theorem lruPut_bound (bmSize : Bitmap → Nat) (overhead : Nat) (s : LruState)
    (k : Nat) (bm : Bitmap) (hws : lruWellSized overhead s)
    (hle : s.curSize ≤ s.maxSize) :
    lruWellSized overhead (lruPut bmSize overhead s k bm) ∧
    (lruPut bmSize overhead s k bm).curSize ≤ s.maxSize ∧
    (lruPut bmSize overhead s k bm).maxSize = s.maxSize := by
  rcases hfind : s.items.find? (fun it => decide (it.key = k)) with _ | it
  · have hcur : s.curSize + (bmSize bm + overhead) =
        ((({ key := k, size := bmSize bm, bm := bm } : LruItem) :: s.items).reverse.map
          (lruAcct overhead)).sum := by
      rw [List.map_reverse, List.sum_reverse]
      simp only [List.map_cons, List.sum_cons, lruAcct]
      rw [hws]
      omega
    have hspec := lruEvictRev_spec s.maxSize overhead
      (({ key := k, size := bmSize bm, bm := bm } : LruItem) :: s.items).reverse
      (s.curSize + (bmSize bm + overhead)) hcur
    have hres : lruPut bmSize overhead s k bm =
        { s with
          items := (lruEvictRev s.maxSize overhead
            (({ key := k, size := bmSize bm, bm := bm } : LruItem) :: s.items).reverse
            (s.curSize + (bmSize bm + overhead))).1.reverse,
          curSize := (lruEvictRev s.maxSize overhead
            (({ key := k, size := bmSize bm, bm := bm } : LruItem) :: s.items).reverse
            (s.curSize + (bmSize bm + overhead))).2 } := by
      unfold lruPut
      rw [hfind]
      rfl
    rw [hres]
    refine ⟨?_, hspec.2, rfl⟩
    show (lruEvictRev _ _ _ _).2 = _
    rw [List.map_reverse, List.sum_reverse]
    exact hspec.1
  · have hres : lruPut bmSize overhead s k bm =
        { s with
          items := ({ key := it.key, size := it.size, bm := bm } : LruItem) ::
            s.items.eraseP (fun j => decide (j.key = k)) } := by
      unfold lruPut
      rw [hfind]
    rw [hres]
    refine ⟨?_, hle, rfl⟩
    show s.curSize = _
    simp only [List.map_cons, List.sum_cons]
    rw [hws, find?_sum (lruAcct overhead) (fun j => decide (j.key = k)) s.items it hfind]
    simp [lruAcct]

theorem applyPuts_bound (bmSize : Bitmap → Nat) (overhead : Nat) :
    ∀ (ops : List (Nat × Bitmap)) (s : LruState),
      lruWellSized overhead s → s.curSize ≤ s.maxSize →
      lruWellSized overhead (applyPuts bmSize overhead s ops) ∧
      (applyPuts bmSize overhead s ops).curSize ≤
        (applyPuts bmSize overhead s ops).maxSize ∧
      (applyPuts bmSize overhead s ops).maxSize = s.maxSize := by
  intro ops
  induction ops with
  | nil => intro s hws hle; exact ⟨hws, hle, rfl⟩
  | cons kb rest ih =>
    intro s hws hle
    simp only [applyPuts]
    obtain ⟨hws1, hle1, hmax1⟩ := lruPut_bound bmSize overhead s kb.1 kb.2 hws hle
    obtain ⟨hws2, hle2, hmax2⟩ :=
      ih (lruPut bmSize overhead s kb.1 kb.2) hws1 (by rw [hmax1]; exact hle1)
    exact ⟨hws2, hle2, by rw [hmax2, hmax1]⟩

/-- Counterexample to C3's retention clause: putting a single entry whose
accounted size (100 + 64) exceeds `maxSize = 10` into the empty cache does
NOT leave that entry in the cache — the eviction loop removes the entry
just inserted, leaving zero entries, not one. -/
theorem claim_C3_counterexample :
    10 < (fun (_ : Bitmap) => 100) {0} + 64 ∧
    (lruPut (fun _ => 100) 64 (newLRUCache 10) 1 {0}).items.length = 0 ∧
    (lruPut (fun _ => 100) 64 (newLRUCache 10) 1 {0}).items.length ≠ 1 :=
  ⟨by norm_num, rfl, by decide⟩

/-- C3 as amended.  After any sequence of `Put`s `curSize ≤ maxSize` holds
unconditionally (so the disjunctive invariant holds with its first
disjunct), and a single entry whose accounted size exceeds `maxSize` is
evicted immediately: the cache is left empty, not holding one oversized
entry. -/
theorem claim_C3_amended_lru_size_bound (bmSize : Bitmap → Nat)
    (overhead maxSize : Nat) :
    (∀ ops : List (Nat × Bitmap),
      (applyPuts bmSize overhead (newLRUCache maxSize) ops).curSize ≤
        (applyPuts bmSize overhead (newLRUCache maxSize) ops).maxSize) ∧
    (∀ (k : Nat) (bm : Bitmap), maxSize < bmSize bm + overhead →
      (lruPut bmSize overhead (newLRUCache maxSize) k bm).items = []) := by
  constructor
  · intro ops
    exact (applyPuts_bound bmSize overhead ops (newLRUCache maxSize)
      (by simp [lruWellSized, newLRUCache]) (by simp [newLRUCache])).2.1
  · intro k bm h
    simp only [lruPut, newLRUCache, List.find?_nil, lruEvict, lruEvictRev,
      Nat.zero_add]
    rw [if_pos h]
    simp [lruEvictRev]

/-- Witness for the amended C3: two puts stay within the bound, and the
oversized single put leaves the cache empty. -/
theorem claim_C3_amended_lru_size_bound_witness :
    (applyPuts (fun _ => 100) 64 (newLRUCache 10) [(1, {0}), (2, {0, 1})]).curSize ≤
      (applyPuts (fun _ => 100) 64 (newLRUCache 10) [(1, {0}), (2, {0, 1})]).maxSize ∧
    (lruPut (fun _ => 100) 64 (newLRUCache 10) 1 {0}).items = [] :=
  ⟨(claim_C3_amended_lru_size_bound (fun _ => 100) 64 10).1 [(1, {0}), (2, {0, 1})],
   (claim_C3_amended_lru_size_bound (fun _ => 100) 64 10).2 1 {0} (by norm_num)⟩

/-! Claim C5: soundness of the fingerprint-keyed cache. -/

theorem self_mem_subExprs (e : Expr) : e ∈ subExprs e := by
  cases e <;> simp [subExprs]

mutual

theorem subExprs_trans : ∀ (e f : Expr), f ∈ subExprs e → subExprs f ⊆ subExprs e
  | .equal c v, f, hf => by
    simp only [subExprs, List.mem_singleton] at hf
    subst hf
    exact List.Subset.refl _
  | .not e1, f, hf => by
    rcases List.mem_cons.mp hf with rfl | hf
    · exact List.Subset.refl _
    · exact (subExprs_trans e1 f hf).trans (List.subset_cons_self _ _)
  | .and es, f, hf => by
    rcases List.mem_cons.mp hf with rfl | hf
    · exact List.Subset.refl _
    · exact (subExprsList_trans es f hf).trans (List.subset_cons_self _ _)
  | .or es, f, hf => by
    rcases List.mem_cons.mp hf with rfl | hf
    · exact List.Subset.refl _
    · exact (subExprsList_trans es f hf).trans (List.subset_cons_self _ _)

theorem subExprsList_trans : ∀ (es : List Expr) (f : Expr),
    f ∈ subExprsList es → subExprs f ⊆ subExprsList es
  | [], f, hf => by simp [subExprsList] at hf
  | e :: es, f, hf => by
    rcases List.mem_append.mp hf with hf | hf
    · exact (subExprs_trans e f hf).trans (List.subset_append_left _ _)
    · exact (subExprsList_trans es f hf).trans (List.subset_append_right _ _)

end

theorem mem_subExprsList_of_mem {es : List Expr} {e : Expr} (h : e ∈ es) :
    e ∈ subExprsList es := by
  induction es with
  | nil => simp at h
  | cons a rest ih =>
    rcases List.mem_cons.mp h with rfl | h
    · exact List.mem_append_left _ (self_mem_subExprs e)
    · exact List.mem_append_right _ (ih h)

theorem lruGet_hit {P : Nat → Bitmap → Prop} {s : LruState} {k : Nat}
    {bm : Bitmap} {s' : LruState} (hinv : LruInv P s)
    (h : lruGet s k = (some bm, s')) : P k bm ∧ LruInv P s' := by
  unfold lruGet at h
  rcases hfind : s.items.find? (fun it => decide (it.key = k)) with _ | it
  · rw [hfind] at h
    cases h
  · rw [hfind] at h
    injection h with h1 h2
    obtain rfl := Option.some.inj h1
    have hk : it.key = k := by
      have := List.find?_some hfind
      simpa using this
    have hmem := List.mem_of_find?_eq_some hfind
    refine ⟨hk ▸ hinv it hmem, ?_⟩
    intro j hj
    rw [← h2] at hj
    simp only at hj
    rcases List.mem_cons.mp hj with rfl | hj
    · exact hinv j hmem
    · exact hinv j (List.mem_of_mem_eraseP hj)

theorem lruGet_miss {s : LruState} {k : Nat} {s' : LruState}
    (h : lruGet s k = (none, s')) : s' = s := by
  unfold lruGet at h
  rcases hfind : s.items.find? (fun it => decide (it.key = k)) with _ | it
  · rw [hfind] at h
    injection h with h1 h2
    exact h2.symm
  · rw [hfind] at h
    cases h

theorem lruEvictRev_mem (maxSize overhead : Nat) :
    ∀ (l : List LruItem) (cur : Nat),
      ∀ x ∈ (lruEvictRev maxSize overhead l cur).1, x ∈ l := by
  intro l
  induction l with
  | nil => intro cur x hx; simp [lruEvictRev] at hx
  | cons it rest ih =>
    intro cur x hx
    simp only [lruEvictRev] at hx
    by_cases hlt : maxSize < cur
    · rw [if_pos hlt] at hx
      exact List.mem_cons_of_mem _ (ih _ x hx)
    · rw [if_neg hlt] at hx
      exact hx

theorem lruPut_LruInv {P : Nat → Bitmap → Prop} {s : LruState} {k : Nat}
    {bm : Bitmap} (bmSize : Bitmap → Nat) (overhead : Nat)
    (hinv : LruInv P s) (hP : P k bm) :
    LruInv P (lruPut bmSize overhead s k bm) := by
  rcases hfind : s.items.find? (fun it => decide (it.key = k)) with _ | it
  · have hres : lruPut bmSize overhead s k bm =
        { s with
          items := (lruEvictRev s.maxSize overhead
            (({ key := k, size := bmSize bm, bm := bm } : LruItem) :: s.items).reverse
            (s.curSize + (bmSize bm + overhead))).1.reverse,
          curSize := (lruEvictRev s.maxSize overhead
            (({ key := k, size := bmSize bm, bm := bm } : LruItem) :: s.items).reverse
            (s.curSize + (bmSize bm + overhead))).2 } := by
      unfold lruPut
      rw [hfind]
      rfl
    rw [hres]
    intro j hj
    simp only [List.mem_reverse] at hj
    have hj2 := lruEvictRev_mem s.maxSize overhead
      (({ key := k, size := bmSize bm, bm := bm } : LruItem) :: s.items).reverse
      (s.curSize + (bmSize bm + overhead)) j hj
    rw [List.mem_reverse] at hj2
    rcases List.mem_cons.mp hj2 with rfl | hj3
    · exact hP
    · exact hinv j hj3
  · have hres : lruPut bmSize overhead s k bm =
        { s with
          items := ({ key := it.key, size := it.size, bm := bm } : LruItem) ::
            s.items.eraseP (fun j => decide (j.key = k)) } := by
      unfold lruPut
      rw [hfind]
    rw [hres]
    intro j hj
    rcases List.mem_cons.mp hj with rfl | hj2
    · have hk : it.key = k := by
        have := List.find?_some hfind
        simpa using this
      simpa [hk] using hP
    · exact hinv j (List.mem_of_mem_eraseP hj2)

theorem lruOps_get (bmSize : Bitmap → Nat) (overhead : Nat) :
    (lruCacheOps bmSize overhead).get = lruGet := rfl

theorem lruOps_put (bmSize : Bitmap → Nat) (overhead : Nat) :
    (lruCacheOps bmSize overhead).put = lruPut bmSize overhead := rfl

mutual

/-- Evaluation with the LRU cache computes the pure denotation, provided
no two expressions of the closed universe `U` share a fingerprint while
denoting differently. -/
theorem evalLru_sound (hash : String → String → Nat) (idx : Index)
    (bmSize : Bitmap → Nat) (overhead : Nat) (U : List Expr)
    (Hclosed : ∀ e ∈ U, ∀ f ∈ subExprs e, f ∈ U)
    (Hfp : ∀ e1 ∈ U, ∀ e2 ∈ U, cacheKey hash e1 = cacheKey hash e2 →
      denote hash idx e1 = denote hash idx e2) :
    (E : Expr) → E ∈ U → (s : LruState) →
      LruInv (CacheGood hash idx U) s →
      ∃ s' : LruState,
        evalExpr hash (lruCacheOps bmSize overhead) idx E s =
          (denote hash idx E, s') ∧
        LruInv (CacheGood hash idx U) s'
  | .equal c v, hE, s, hinv => by
    rcases hc : alookup c idx.schema.columns with _ | col
    · exact ⟨s, by simp [evalExpr, denote, hc], hinv⟩
    · rcases hg : lruGet s (cacheKey hash (.equal c v)) with ⟨o, s1⟩
      cases o with
      | some bm =>
        obtain ⟨⟨e', he'U, hfpe, hde⟩, hinv1⟩ := lruGet_hit hinv hg
        have hden : denote hash idx (.equal c v) = .ok bm := by
          rw [Hfp (.equal c v) hE e' he'U hfpe.symm]
          exact hde
        refine ⟨s1, ?_, hinv1⟩
        simp only [evalExpr, hc, lruOps_get, hg, hden]
      | none =>
        obtain rfl := lruGet_miss hg
        have hden : denote hash idx (.equal c v) =
            .ok (match idx.getCol (hash c v) with
                 | .error _ => ∅
                 | .ok bm => bm) := by
          simp [denote, hc]
        refine ⟨lruPut bmSize overhead s1 (cacheKey hash (.equal c v))
          (match idx.getCol (hash c v) with
           | .error _ => ∅
           | .ok bm => bm), ?_, ?_⟩
        · simp only [evalExpr, hc, lruOps_get, hg, lruOps_put, hden]
        · exact lruPut_LruInv bmSize overhead hinv ⟨.equal c v, hE, rfl, hden⟩
  | .not e, hE, s, hinv => by
    have heU : e ∈ U :=
      Hclosed (.not e) hE e (List.mem_cons_of_mem _ (self_mem_subExprs e))
    rcases hg : lruGet s (cacheKey hash (.not e)) with ⟨o, s1⟩
    cases o with
    | some bm =>
      obtain ⟨⟨e', he'U, hfpe, hde⟩, hinv1⟩ := lruGet_hit hinv hg
      have hden : denote hash idx (.not e) = .ok bm := by
        rw [Hfp (.not e) hE e' he'U hfpe.symm]
        exact hde
      refine ⟨s1, ?_, hinv1⟩
      simp only [evalExpr, lruOps_get, hg, hden]
    | none =>
      obtain rfl := lruGet_miss hg
      obtain ⟨s2, hrec, hinv2⟩ :=
        evalLru_sound hash idx bmSize overhead U Hclosed Hfp e heU s1 hinv
      cases hd : denote hash idx e with
      | error m =>
        refine ⟨s2, ?_, hinv2⟩
        rw [hd] at hrec
        simp only [evalExpr, lruOps_get, hg, hrec, denote, hd]
      | ok bm =>
        rw [hd] at hrec
        have hden : denote hash idx (.not e) =
            .ok (flipRange bm idx.nextRowID) := by
          simp [denote, hd]
        refine ⟨lruPut bmSize overhead s2 (cacheKey hash (.not e))
          (flipRange bm idx.nextRowID), ?_, ?_⟩
        · simp only [evalExpr, lruOps_get, hg, hrec, lruOps_put, hden]
        · exact lruPut_LruInv bmSize overhead hinv2 ⟨.not e, hE, rfl, hden⟩
  | .and es, hE, s, hinv => by
    have hesU : ∀ e ∈ es, e ∈ U := fun e he =>
      Hclosed (.and es) hE e
        (List.mem_cons_of_mem _ (mem_subExprsList_of_mem he))
    rcases hg : lruGet s (cacheKey hash (.and es)) with ⟨o, s1⟩
    cases o with
    | some bm =>
      obtain ⟨⟨e', he'U, hfpe, hde⟩, hinv1⟩ := lruGet_hit hinv hg
      have hden : denote hash idx (.and es) = .ok bm := by
        rw [Hfp (.and es) hE e' he'U hfpe.symm]
        exact hde
      refine ⟨s1, ?_, hinv1⟩
      simp only [evalExpr, lruOps_get, hg, hden]
    | none =>
      obtain rfl := lruGet_miss hg
      obtain ⟨s2, hrec, hinv2⟩ :=
        evalListLru_sound hash idx bmSize overhead U Hclosed Hfp es hesU s1 hinv
      cases hd : denoteList hash idx es with
      | error m =>
        refine ⟨s2, ?_, hinv2⟩
        rw [hd] at hrec
        simp only [evalExpr, lruOps_get, hg, hrec, denote, hd]
      | ok bms =>
        rw [hd] at hrec
        have hden : denote hash idx (.and es) = .ok (fastAnd bms) := by
          simp [denote, hd]
        refine ⟨lruPut bmSize overhead s2 (cacheKey hash (.and es))
          (fastAnd bms), ?_, ?_⟩
        · simp only [evalExpr, lruOps_get, hg, hrec, lruOps_put, hden]
        · exact lruPut_LruInv bmSize overhead hinv2 ⟨.and es, hE, rfl, hden⟩
  | .or es, hE, s, hinv => by
    have hesU : ∀ e ∈ es, e ∈ U := fun e he =>
      Hclosed (.or es) hE e
        (List.mem_cons_of_mem _ (mem_subExprsList_of_mem he))
    rcases hg : lruGet s (cacheKey hash (.or es)) with ⟨o, s1⟩
    cases o with
    | some bm =>
      obtain ⟨⟨e', he'U, hfpe, hde⟩, hinv1⟩ := lruGet_hit hinv hg
      have hden : denote hash idx (.or es) = .ok bm := by
        rw [Hfp (.or es) hE e' he'U hfpe.symm]
        exact hde
      refine ⟨s1, ?_, hinv1⟩
      simp only [evalExpr, lruOps_get, hg, hden]
    | none =>
      obtain rfl := lruGet_miss hg
      obtain ⟨s2, hrec, hinv2⟩ :=
        evalListLru_sound hash idx bmSize overhead U Hclosed Hfp es hesU s1 hinv
      cases hd : denoteList hash idx es with
      | error m =>
        refine ⟨s2, ?_, hinv2⟩
        rw [hd] at hrec
        simp only [evalExpr, lruOps_get, hg, hrec, denote, hd]
      | ok bms =>
        rw [hd] at hrec
        have hden : denote hash idx (.or es) = .ok (fastOr bms) := by
          simp [denote, hd]
        refine ⟨lruPut bmSize overhead s2 (cacheKey hash (.or es))
          (fastOr bms), ?_, ?_⟩
        · simp only [evalExpr, lruOps_get, hg, hrec, lruOps_put, hden]
        · exact lruPut_LruInv bmSize overhead hinv2 ⟨.or es, hE, rfl, hden⟩

/-- List version of `evalLru_sound`. -/
theorem evalListLru_sound (hash : String → String → Nat) (idx : Index)
    (bmSize : Bitmap → Nat) (overhead : Nat) (U : List Expr)
    (Hclosed : ∀ e ∈ U, ∀ f ∈ subExprs e, f ∈ U)
    (Hfp : ∀ e1 ∈ U, ∀ e2 ∈ U, cacheKey hash e1 = cacheKey hash e2 →
      denote hash idx e1 = denote hash idx e2) :
    (es : List Expr) → (∀ e ∈ es, e ∈ U) → (s : LruState) →
      LruInv (CacheGood hash idx U) s →
      ∃ s' : LruState,
        evalList hash (lruCacheOps bmSize overhead) idx es s =
          (denoteList hash idx es, s') ∧
        LruInv (CacheGood hash idx U) s'
  | [], _, s, hinv => ⟨s, rfl, hinv⟩
  | e :: es, hes, s, hinv => by
    obtain ⟨s1, hrec1, hinv1⟩ :=
      evalLru_sound hash idx bmSize overhead U Hclosed Hfp e
        (hes e (List.mem_cons_self e es)) s hinv
    cases hd : denote hash idx e with
    | error m =>
      refine ⟨s1, ?_, hinv1⟩
      rw [hd] at hrec1
      simp only [evalList, hrec1, denoteList, hd]
    | ok bm =>
      rw [hd] at hrec1
      obtain ⟨s2, hrec2, hinv2⟩ :=
        evalListLru_sound hash idx bmSize overhead U Hclosed Hfp es
          (fun x hx => hes x (List.mem_cons_of_mem e hx)) s1 hinv1
      cases hds : denoteList hash idx es with
      | error m =>
        refine ⟨s2, ?_, hinv2⟩
        rw [hds] at hrec2
        simp only [evalList, hrec1, hrec2, denoteList, hd, hds]
      | ok bms =>
        rw [hds] at hrec2
        refine ⟨s2, ?_, hinv2⟩
        simp only [evalList, hrec1, hrec2, denoteList, hd, hds]

end

theorem execSeq_inv (hash : String → String → Nat) (idx : Index)
    (bmSize : Bitmap → Nat) (overhead : Nat) (U : List Expr)
    (Hclosed : ∀ e ∈ U, ∀ f ∈ subExprs e, f ∈ U)
    (Hfp : ∀ e1 ∈ U, ∀ e2 ∈ U, cacheKey hash e1 = cacheKey hash e2 →
      denote hash idx e1 = denote hash idx e2) :
    ∀ (past : List Expr), (∀ e ∈ past, e ∈ U) → ∀ (s : LruState),
      LruInv (CacheGood hash idx U) s →
      LruInv (CacheGood hash idx U)
        (execSeq hash (lruCacheOps bmSize overhead) idx s past) := by
  intro past
  induction past with
  | nil => intro _ s hinv; exact hinv
  | cons e rest ih =>
    intro hp s hinv
    obtain ⟨s', heq, hinv'⟩ :=
      evalLru_sound hash idx bmSize overhead U Hclosed Hfp e
        (hp e (List.mem_cons_self e rest)) s hinv
    show LruInv _ (execSeq hash (lruCacheOps bmSize overhead) idx
      (evalExpr hash (lruCacheOps bmSize overhead) idx e s).2 rest)
    rw [heq]
    exact ih (fun x hx => hp x (List.mem_cons_of_mem e hx)) s' hinv'

/-- Counterexample to C5: `And [a="1", a="1"]` and `And [b="2", b="2"]`
share the fingerprint `maskAnd` (each child's rotated key XORs itself
away), so after evaluating the first, evaluating the second hits the
cache and returns `{0}` — the first expression's bitmap — while its cold
evaluation returns `{0, 1}`.  A cache hit can therefore yield a bitmap
different from the cold evaluation. -/
theorem claim_C5_counterexample :
    cacheKey demoHash (.and [.equal "a" "1", .equal "a" "1"]) =
      cacheKey demoHash (.and [.equal "b" "2", .equal "b" "2"]) ∧
    (evalExpr demoHash demoLruOps demoIdx2
      (.and [.equal "b" "2", .equal "b" "2"]) demoWarmState).1 = .ok {0} ∧
    (evalExpr demoHash demoLruOps demoIdx2
      (.and [.equal "b" "2", .equal "b" "2"]) (newLRUCache 1000)).1 =
      .ok (insert 1 {0}) ∧
    ({0} : Bitmap) ≠ insert 1 {0} := by
  refine ⟨by decide, rfl, rfl, by decide⟩

/-- C5 as amended.  A warm evaluation (after any prior sequence of
evaluations populated the cache) returns the same result as a cold
evaluation, provided no two subexpressions involved share a fingerprint
while denoting different bitmaps — the collision-freedom the fingerprint
design assumes but does not guarantee. -/
theorem claim_C5_amended_cache_sound_without_fingerprint_collisions
    (hash : String → String → Nat) (idx : Index) (bmSize : Bitmap → Nat)
    (overhead maxSize : Nat) (past : List Expr) (E : Expr)
    (Hfp : ∀ e1 ∈ subExprsList (E :: past), ∀ e2 ∈ subExprsList (E :: past),
      cacheKey hash e1 = cacheKey hash e2 →
      denote hash idx e1 = denote hash idx e2) :
    (evalExpr hash (lruCacheOps bmSize overhead) idx E
      (execSeq hash (lruCacheOps bmSize overhead) idx
        (newLRUCache maxSize) past)).1 =
    (evalExpr hash (lruCacheOps bmSize overhead) idx E
      (newLRUCache maxSize)).1 := by
  have Hclosed : ∀ e ∈ subExprsList (E :: past), ∀ f ∈ subExprs e,
      f ∈ subExprsList (E :: past) :=
    fun e he f hf => subExprsList_trans (E :: past) e he hf
  have hinv0 : LruInv (CacheGood hash idx (subExprsList (E :: past)))
      (newLRUCache maxSize) := by
    intro it hit
    simp [newLRUCache] at hit
  have hEU : E ∈ subExprsList (E :: past) :=
    mem_subExprsList_of_mem (List.mem_cons_self E past)
  have hwarm := execSeq_inv hash idx bmSize overhead _ Hclosed Hfp past
    (fun e he => mem_subExprsList_of_mem (List.mem_cons_of_mem E he))
    (newLRUCache maxSize) hinv0
  obtain ⟨s1, h1, -⟩ := evalLru_sound hash idx bmSize overhead _ Hclosed Hfp
    E hEU _ hwarm
  obtain ⟨s2, h2, -⟩ := evalLru_sound hash idx bmSize overhead _ Hclosed Hfp
    E hEU _ hinv0
  rw [h1, h2]

/-- Witness for the amended C5: a warm second evaluation of
`(a="1") & (b="2")` equals its cold evaluation when no fingerprints
collide. -/
theorem claim_C5_amended_cache_sound_without_fingerprint_collisions_witness :
    (evalExpr demoHash demoLruOps demoIdx2
      (.and [.equal "a" "1", .equal "b" "2"])
      (execSeq demoHash demoLruOps demoIdx2 (newLRUCache 1000)
        [.equal "a" "1"])).1 =
    (evalExpr demoHash demoLruOps demoIdx2
      (.and [.equal "a" "1", .equal "b" "2"]) (newLRUCache 1000)).1 :=
  claim_C5_amended_cache_sound_without_fingerprint_collisions demoHash demoIdx2
    Finset.card 0 1000 [.equal "a" "1"]
    (.and [.equal "a" "1", .equal "b" "2"]) (by decide)

/-! ### C6: the external builder produces the same store as the in-memory
builder.

The sorted-cursor grouping of `BigIndexWriter.Flush` is characterized via
`groupsFrom`/`tempRowsOf`, the scratch key list via the same row/code
predicate that characterizes the in-memory postings. -/

theorem mem_tempRowsOf (code r : Nat) :
    ∀ ks : List (Nat × Nat), r ∈ tempRowsOf code ks ↔ (code, r) ∈ ks := by
  intro ks
  induction ks with
  | nil => simp [tempRowsOf]
  | cons p rest ih =>
    by_cases hp : p.1 = code
    · simp only [tempRowsOf, if_pos hp, Finset.mem_insert, ih, List.mem_cons]
      constructor
      · rintro (rfl | h)
        · exact Or.inl (by rw [Prod.ext_iff]; exact ⟨hp.symm, rfl⟩)
        · exact Or.inr h
      · rintro (h | h)
        · rw [Prod.ext_iff] at h
          exact Or.inl h.2
        · exact Or.inr h
    · simp only [tempRowsOf, if_neg hp, ih, List.mem_cons]
      constructor
      · exact Or.inr
      · rintro (h | h)
        · rw [Prod.ext_iff] at h
          exact absurd h.1.symm hp
        · exact h

theorem tempRowsOf_empty (code : Nat) :
    ∀ ks : List (Nat × Nat), (∀ p ∈ ks, code < p.1) → tempRowsOf code ks = ∅ := by
  intro ks
  induction ks with
  | nil => intro _; rfl
  | cons p rest ih =>
    intro h
    have hp : p.1 ≠ code := by
      have := h p (List.mem_cons_self p rest)
      omega
    simp only [tempRowsOf, if_neg hp]
    exact ih fun q hq => h q (List.mem_cons_of_mem p hq)

theorem groupsFrom_lookup :
    ∀ (ks : List (Nat × Nat)) (cur : Nat) (b : Bitmap),
      List.Pairwise tempLE ks → (∀ p ∈ ks, cur ≤ p.1) →
      ∀ code, alookup code (groupsFrom cur b ks) =
        if code = cur then some (b ∪ tempRowsOf code ks)
        else if ks.any (fun p => decide (p.1 = code)) then some (tempRowsOf code ks)
        else none := by
  intro ks
  induction ks with
  | nil =>
    intro cur b _ _ code
    by_cases hc : code = cur
    · subst hc
      simp [groupsFrom, alookup, tempRowsOf]
    · simp [groupsFrom, alookup, hc, tempRowsOf]
  | cons p rest ih =>
    intro cur b hsort hge code
    obtain ⟨hhead, htail⟩ := List.pairwise_cons.mp hsort
    obtain ⟨c0, r0⟩ := p
    have hcur_le : cur ≤ c0 := hge (c0, r0) (List.mem_cons_self _ _)
    have hrest_ge : ∀ q ∈ rest, c0 ≤ q.1 := by
      intro q hq
      have := hhead q hq
      unfold tempLE at this
      omega
    by_cases hcc : cur = c0
    · subst hcc
      have hstep : groupsFrom cur b ((cur, r0) :: rest) =
          groupsFrom cur (insert r0 b) rest := by
        simp [groupsFrom]
      rw [hstep, ih cur (insert r0 b) htail hrest_ge code]
      by_cases hc : code = cur
      · subst hc
        rw [if_pos rfl, if_pos rfl]
        have ht : tempRowsOf code ((code, r0) :: rest) =
            insert r0 (tempRowsOf code rest) := by
          simp [tempRowsOf]
        rw [ht, Finset.insert_union, Finset.union_insert]
      · rw [if_neg hc, if_neg hc]
        have ht : tempRowsOf code ((cur, r0) :: rest) = tempRowsOf code rest := by
          have hne : cur ≠ code := fun h => hc h.symm
          simp [tempRowsOf, hne]
        have ha : ((cur, r0) :: rest).any (fun p => decide (p.1 = code)) =
            rest.any (fun p => decide (p.1 = code)) := by
          simp only [List.any_cons]
          rw [decide_eq_false (fun h : cur = code => hc h.symm), Bool.false_or]
        rw [ht, ha]
    · have hclt : cur < c0 := lt_of_le_of_ne hcur_le hcc
      have hstep : groupsFrom cur b ((c0, r0) :: rest) =
          (cur, b) :: groupsFrom c0 (insert r0 ∅) rest := by
        simp [groupsFrom, hcc]
      rw [hstep]
      by_cases hc : code = cur
      · subst hc
        have hl : alookup code ((code, b) :: groupsFrom c0 (insert r0 ∅) rest) =
            some b := by
          simp [alookup]
        rw [hl, if_pos rfl]
        have ht0 : tempRowsOf code ((c0, r0) :: rest) = ∅ := by
          apply tempRowsOf_empty
          intro q hq
          rcases List.mem_cons.mp hq with rfl | hq
          · exact hclt
          · have := hrest_ge q hq
            omega
        rw [ht0, Finset.union_empty]
      · have hl : alookup code ((cur, b) :: groupsFrom c0 (insert r0 ∅) rest) =
            alookup code (groupsFrom c0 (insert r0 ∅) rest) := by
          simp [alookup, hc]
        rw [hl, ih c0 (insert r0 ∅) htail hrest_ge code, if_neg hc]
        by_cases hc0 : code = c0
        · subst hc0
          rw [if_pos rfl]
          have ha : ((code, r0) :: rest).any (fun p => decide (p.1 = code)) = true := by
            simp [List.any_cons]
          rw [ha, if_pos rfl]
          have ht : tempRowsOf code ((code, r0) :: rest) =
              insert r0 (tempRowsOf code rest) := by
            simp [tempRowsOf]
          rw [ht, Finset.insert_union, Finset.empty_union]
        · rw [if_neg hc0]
          have ht : tempRowsOf code ((c0, r0) :: rest) = tempRowsOf code rest := by
            have hne : c0 ≠ code := fun h => hc0 h.symm
            simp [tempRowsOf, hne]
          have ha : ((c0, r0) :: rest).any (fun p => decide (p.1 = code)) =
              rest.any (fun p => decide (p.1 = code)) := by
            simp only [List.any_cons]
            rw [decide_eq_false (fun h : c0 = code => hc0 h.symm), Bool.false_or]
          rw [ht, ha]

theorem flushGroup_some_eq :
    ∀ (ks : List (Nat × Nat)) (out : List (Nat × Bitmap)) (cur : Nat) (b : Bitmap),
      flushGroup out cur (some b) ks = some (out ++ groupsFrom cur b ks) := by
  intro ks
  induction ks with
  | nil => intro out cur b; rfl
  | cons p rest ih =>
    intro out cur b
    obtain ⟨code, row⟩ := p
    by_cases hcc : cur ≠ code
    · have h1 : flushGroup out cur (some b) ((code, row) :: rest) =
          flushGroup (out ++ [(cur, b)]) code (some (insert row ∅)) rest := by
        simp [flushGroup, hcc]
      have h2 : groupsFrom cur b ((code, row) :: rest) =
          (cur, b) :: groupsFrom code (insert row ∅) rest := by
        simp [groupsFrom, hcc]
      rw [h1, h2, ih]
      simp
    · push_neg at hcc
      subst hcc
      have h1 : flushGroup out cur (some b) ((cur, row) :: rest) =
          flushGroup out cur (some (insert row b)) rest := by
        simp [flushGroup]
      have h2 : groupsFrom cur b ((cur, row) :: rest) =
          groupsFrom cur (insert row b) rest := by
        simp [groupsFrom]
      rw [h1, h2, ih]

/-- Starting the grouping loop on a sorted, zero-free key list: it succeeds
and the emitted association list answers lookups by `tempRowsOf`. -/
theorem flushGroup_start (ks : List (Nat × Nat))
    (hsort : List.Pairwise tempLE ks) (h0 : ∀ p ∈ ks, p.1 ≠ 0) :
    ∃ posts, flushGroup [] 0 none ks = some posts ∧
      ∀ code, alookup code posts =
        if ks.any (fun p => decide (p.1 = code)) then some (tempRowsOf code ks)
        else none := by
  rcases ks with _ | ⟨⟨c0, r0⟩, rest⟩
  · exact ⟨[], rfl, fun code => by simp [alookup, tempRowsOf]⟩
  · obtain ⟨hhead, htail⟩ := List.pairwise_cons.mp hsort
    have hc0 : c0 ≠ 0 := h0 (c0, r0) (List.mem_cons_self _ _)
    have hzc : (0 : Nat) ≠ c0 := fun h => hc0 h.symm
    have hstep : flushGroup [] 0 none ((c0, r0) :: rest) =
        flushGroup [] c0 (some (insert r0 ∅)) rest := by
      simp [flushGroup, hzc]
    rw [hstep, flushGroup_some_eq]
    refine ⟨groupsFrom c0 (insert r0 ∅) rest, by simp, fun code => ?_⟩
    have hge : ∀ q ∈ rest, c0 ≤ q.1 := by
      intro q hq
      have := hhead q hq
      unfold tempLE at this
      omega
    rw [groupsFrom_lookup rest c0 (insert r0 ∅) htail hge code]
    by_cases hcc : code = c0
    · subst hcc
      rw [if_pos rfl]
      have ha : ((code, r0) :: rest).any (fun p => decide (p.1 = code)) = true := by
        simp
      rw [ha, if_pos rfl]
      have ht : tempRowsOf code ((code, r0) :: rest) =
          insert r0 (tempRowsOf code rest) := by
        simp [tempRowsOf]
      rw [ht, Finset.insert_union, Finset.empty_union]
    · rw [if_neg hcc]
      have ha : ((c0, r0) :: rest).any (fun p => decide (p.1 = code)) =
          rest.any (fun p => decide (p.1 = code)) := by
        simp only [List.any_cons]
        rw [decide_eq_false (fun h : c0 = code => hcc h.symm), Bool.false_or]
      have ht : tempRowsOf code ((c0, r0) :: rest) = tempRowsOf code rest := by
        have hne : c0 ≠ code := fun h => hcc h.symm
        simp [tempRowsOf, hne]
      rw [ha, ht]

theorem foldl_addPair_schema (hash : String → String → Nat) (rowID : Nat) :
    ∀ (row : Row) (w : IndexWriter),
      (row.foldl (addPair hash rowID) w).schema = schemaFoldRow hash w.schema row := by
  intro row
  induction row with
  | nil => intro w; rfl
  | cons kv rest ih =>
    intro w
    rw [List.foldl_cons, ih]
    rfl

theorem foldl_bigAddPair_schema (hash : String → String → Nat) (rowID : Nat) :
    ∀ (row : Row) (w : BigIndexWriter),
      (row.foldl (bigAddPair hash rowID) w).schema = schemaFoldRow hash w.schema row := by
  intro row
  induction row with
  | nil => intro w; rfl
  | cons kv rest ih =>
    intro w
    rw [List.foldl_cons, ih]
    rfl

theorem schemaFoldRow_hashed (hash : String → String → Nat) :
    ∀ (row : Row) (sch : Schema), SchemaHashed hash sch →
      SchemaHashed hash (schemaFoldRow hash sch row) := by
  intro row
  induction row with
  | nil => intro sch h; exact h
  | cons kv rest ih =>
    intro sch h
    have hcons : schemaFoldRow hash sch (kv :: rest) =
        schemaFoldRow hash (schemaAdd hash sch kv.1 kv.2).1 rest := rfl
    rw [hcons]
    exact ih _ (schemaAdd_hashed hash sch kv.1 kv.2 h)

theorem bigBuild_eq_foldl (hash : String → String → Nat) (rows : List Row) :
    bigBuild hash rows = rows.foldl (bigStep hash) ⟨⟨[]⟩, [], 0⟩ := rfl

theorem bigStep_nextRowID (hash : String → String → Nat) (w : BigIndexWriter)
    (row : Row) : (bigStep hash w row).nextRowID = w.nextRowID + 1 := by
  simp [bigStep, bigAddRow]

theorem foldl_bigAddPair_nextRowID (hash : String → String → Nat) (rowID : Nat) :
    ∀ (row : Row) (w : BigIndexWriter),
      (row.foldl (bigAddPair hash rowID) w).nextRowID = w.nextRowID := by
  intro row
  induction row with
  | nil => intro w; rfl
  | cons kv rest ih => intro w; rw [List.foldl_cons, ih]; rfl

theorem bigStep_schema (hash : String → String → Nat) (w : BigIndexWriter)
    (row : Row) :
    (bigStep hash w row).schema = schemaFoldRow hash w.schema row := by
  simp [bigStep, bigAddRow, foldl_bigAddPair_schema]

theorem bigStep_temp (hash : String → String → Nat) (w : BigIndexWriter)
    (row : Row) :
    (bigStep hash w row).temp = (row.foldl (bigAddPair hash w.nextRowID) w).temp := by
  simp [bigStep, bigAddRow]

theorem foldl_schema_eq (hash : String → String → Nat) :
    ∀ (rows : List Row) (w : IndexWriter) (v : BigIndexWriter),
      w.schema = v.schema →
      (rows.foldl (buildStep hash) w).schema = (rows.foldl (bigStep hash) v).schema := by
  intro rows
  induction rows with
  | nil => intro w v h; exact h
  | cons row rest ih =>
    intro w v h
    rw [List.foldl_cons, List.foldl_cons]
    apply ih
    rw [buildStep_schema, foldl_addPair_schema, bigStep_schema, h]

theorem bigBuild_schema_eq (hash : String → String → Nat) (rows : List Row) :
    (bigBuild hash rows).schema = (buildWriter hash rows).schema := by
  rw [buildWriter_eq_foldl, bigBuild_eq_foldl]
  exact (foldl_schema_eq hash rows emptyIndexWriter ⟨⟨[]⟩, [], 0⟩ rfl).symm

theorem foldl_bigStep_nextRowID (hash : String → String → Nat) :
    ∀ (rest : List Row) (w : BigIndexWriter),
      (rest.foldl (bigStep hash) w).nextRowID = w.nextRowID + rest.length := by
  intro rest
  induction rest with
  | nil => intro w; simp
  | cons row rest ih =>
    intro w
    rw [List.foldl_cons, ih, bigStep_nextRowID]
    simp [Nat.add_assoc, Nat.add_comm 1 rest.length]

theorem bigBuild_nextRowID (hash : String → String → Nat) (rows : List Row) :
    (bigBuild hash rows).nextRowID = rows.length := by
  rw [bigBuild_eq_foldl, foldl_bigStep_nextRowID]
  simp

theorem foldl_bigAddPair_temp (hash : String → String → Nat) (rowID : Nat) :
    ∀ (row : Row) (w : BigIndexWriter), SchemaHashed hash w.schema →
      (SchemaHashed hash (row.foldl (bigAddPair hash rowID) w).schema ∧
       (row.foldl (bigAddPair hash rowID) w).temp =
         w.temp ++ row.map (fun kv => (hash kv.1 kv.2, rowID))) := by
  intro row
  induction row with
  | nil => intro w hw; exact ⟨hw, by simp⟩
  | cons kv rest ih =>
    intro w hw
    have hcode := schemaAdd_code_eq hash w.schema kv.1 kv.2 hw
    have hsch : SchemaHashed hash (bigAddPair hash rowID w kv).schema :=
      schemaAdd_hashed hash w.schema kv.1 kv.2 hw
    obtain ⟨h1, h2⟩ := ih (bigAddPair hash rowID w kv) hsch
    refine ⟨h1, ?_⟩
    rw [List.foldl_cons, h2]
    have hstep : (bigAddPair hash rowID w kv).temp =
        w.temp ++ [(hash kv.1 kv.2, rowID)] := by
      simp [bigAddPair, hcode]
    rw [hstep]
    simp

theorem foldl_bigStep_temp (hash : String → String → Nat) :
    ∀ (rest : List Row) (w : BigIndexWriter), SchemaHashed hash w.schema →
      ∀ (code r : Nat),
        ((code, r) ∈ (rest.foldl (bigStep hash) w).temp ↔
          (code, r) ∈ w.temp ∨
          ∃ j, j < rest.length ∧ r = w.nextRowID + j ∧
            rowHasCode hash (rest.getD j []) code = true) := by
  intro rest
  induction rest with
  | nil =>
    intro w _ code r
    simp
  | cons row rest ih =>
    intro w hw code r
    rw [List.foldl_cons]
    have hsch : SchemaHashed hash (bigStep hash w row).schema := by
      rw [bigStep_schema]
      exact schemaFoldRow_hashed hash row w.schema hw
    rw [ih (bigStep hash w row) hsch code r]
    have htemp : (bigStep hash w row).temp =
        w.temp ++ row.map (fun kv => (hash kv.1 kv.2, w.nextRowID)) := by
      rw [bigStep_temp]
      exact (foldl_bigAddPair_temp hash w.nextRowID row w hw).2
    rw [htemp, bigStep_nextRowID]
    simp only [List.mem_append, List.length_cons]
    constructor
    · rintro ((hmem | hmem) | ⟨j, hj, hr, hcode⟩)
      · exact Or.inl hmem
      · right
        obtain ⟨kv, hkv, heq⟩ := List.mem_map.mp hmem
        rw [Prod.ext_iff] at heq
        obtain ⟨hh1, hh2⟩ := heq
        refine ⟨0, by omega, by omega, ?_⟩
        simp only [List.getD_cons_zero, rowHasCode, List.any_eq_true,
          decide_eq_true_eq]
        exact ⟨kv, hkv, hh1⟩
      · exact Or.inr ⟨j + 1, by omega, by omega, by simpa using hcode⟩
    · rintro (hmem | ⟨j, hj, hr, hcode⟩)
      · exact Or.inl (Or.inl hmem)
      · rcases j with _ | j
        · left
          right
          simp only [List.getD_cons_zero, rowHasCode, List.any_eq_true,
            decide_eq_true_eq] at hcode
          obtain ⟨kv, hkv, hk⟩ := hcode
          apply List.mem_map.mpr
          refine ⟨kv, hkv, ?_⟩
          rw [Prod.ext_iff]
          exact ⟨hk, by omega⟩
        · right
          exact ⟨j, by omega, by omega, by simpa using hcode⟩

theorem bigBuild_temp_mem (hash : String → String → Nat) (rows : List Row)
    (code r : Nat) :
    (code, r) ∈ (bigBuild hash rows).temp ↔
      r < rows.length ∧ rowHasCode hash (rows.getD r []) code = true := by
  have hsch : SchemaHashed hash (⟨⟨[]⟩, [], 0⟩ : BigIndexWriter).schema := by
    intro k col hk
    simp [alookup] at hk
  rw [bigBuild_eq_foldl, foldl_bigStep_temp hash rows ⟨⟨[]⟩, [], 0⟩ hsch code r]
  simp only [List.not_mem_nil, false_or]
  constructor
  · rintro ⟨j, hj, rfl, hcode⟩
    exact ⟨by omega, by simpa using hcode⟩
  · rintro ⟨hr, hcode⟩
    exact ⟨r, hr, by omega, hcode⟩

theorem exists_getD_of_mem {α : Type} (d : α) (p : α → Prop) :
    ∀ (l : List α) (x : α), x ∈ l → p x → ∃ r, r < l.length ∧ p (l.getD r d) := by
  intro l
  induction l with
  | nil => intro x hx; exact absurd hx (List.not_mem_nil x)
  | cons a l ih =>
    intro x hx hp
    rcases List.mem_cons.mp hx with rfl | hx'
    · exact ⟨0, by simp, by simpa only [List.getD_cons_zero] using hp⟩
    · obtain ⟨r, hr, hp'⟩ := ih x hx' hp
      refine ⟨r + 1, ?_, by simpa only [List.getD_cons_succ] using hp'⟩
      simp only [List.length_cons]
      omega

theorem exists_mem_iff_getD {α : Type} (l : List α) (d : α) (p : α → Prop) :
    (∃ x ∈ l, p x) ↔ ∃ r, r < l.length ∧ p (l.getD r d) := by
  constructor
  · rintro ⟨x, hx, hp⟩
    exact exists_getD_of_mem d p l x hx hp
  · rintro ⟨r, hr, hp⟩
    exact ⟨l.getD r d, getD_mem l r d hr, hp⟩

/-- C6: feeding an identical stream of rows to the in-memory builder
(`IndexWriter` then `WriteToBoltDatabase`) and to the external builder
(`BigIndexWriter.AddRow` then `Flush`) yields equivalent persistent stores:
the same schema, the same `nextRowID`, and the same posting bitmap under
every value-code key.  The hypothesis that no field pair of the stream
hashes to value code `0` is needed because `Flush` starts its grouping loop
with `currentValueIdx = 0` and a nil bitmap, so a first scratch key with
code `0` would make the source call `Add` on a nil bitmap. -/
theorem claim_C6_external_builder_matches_inmemory
    (hash : String → String → Nat) (rows : List Row)
    (h0 : ∀ row ∈ rows, ∀ kv ∈ row, hash kv.1 kv.2 ≠ 0) :
    ∃ st : Store,
      bigFlush (bigBuild hash rows) = some st ∧
      st.schema = (writeToStore (buildWriter hash rows)).schema ∧
      st.nextRowID = (writeToStore (buildWriter hash rows)).nextRowID ∧
      ∀ code, alookup code st.postings =
        alookup code (writeToStore (buildWriter hash rows)).postings := by
  have h0temp : ∀ p ∈ (bigBuild hash rows).temp, p.1 ≠ 0 := by
    rintro ⟨code, r⟩ hp
    obtain ⟨hr, hcode⟩ := (bigBuild_temp_mem hash rows code r).mp hp
    simp only [rowHasCode, List.any_eq_true, decide_eq_true_eq] at hcode
    obtain ⟨kv, hkv, hk⟩ := hcode
    intro hzero
    have hrow : rows.getD r [] ∈ rows := getD_mem rows r [] hr
    exact h0 _ hrow kv hkv (by rw [hk]; exact hzero)
  have hperm := List.perm_insertionSort tempLE (bigBuild hash rows).temp
  have hsort : List.Pairwise tempLE ((bigBuild hash rows).temp.insertionSort tempLE) :=
    List.sorted_insertionSort tempLE (bigBuild hash rows).temp
  have hksmem : ∀ code r,
      ((code, r) ∈ (bigBuild hash rows).temp.insertionSort tempLE ↔
        r < rows.length ∧ rowHasCode hash (rows.getD r []) code = true) := by
    intro code r
    rw [hperm.mem_iff]
    exact bigBuild_temp_mem hash rows code r
  obtain ⟨posts, hflush, hlook⟩ :=
    flushGroup_start ((bigBuild hash rows).temp.insertionSort tempLE) hsort
      (fun p hp => h0temp p (hperm.mem_iff.mp hp))
  refine ⟨⟨(bigBuild hash rows).schema, (bigBuild hash rows).nextRowID, posts⟩,
    ?_, ?_, ?_, ?_⟩
  · unfold bigFlush
    rw [hflush]
  · rw [writeToStore_schema]
    exact bigBuild_schema_eq hash rows
  · rw [writeToStore_nextRowID, bigBuild_nextRowID, buildWriter_nextRowID]
  · intro code
    rw [writeToStore_postings, hlook code]
    rcases hmem : alookup code (buildWriter hash rows).values with _ | bm
    · by_cases hany :
        ((bigBuild hash rows).temp.insertionSort tempLE).any
          (fun p => decide (p.1 = code)) = true
      · exfalso
        obtain ⟨p, hpks, hpc⟩ := List.any_eq_true.mp hany
        obtain ⟨c, r⟩ := p
        simp only [decide_eq_true_eq] at hpc
        subst hpc
        obtain ⟨hr, hcode⟩ := (hksmem c r).mp hpks
        have hs : (alookup c (buildWriter hash rows).values).isSome := by
          rw [buildWriter_isSome]
          exact (exists_mem_iff_getD rows []
            (fun row => rowHasCode hash row c = true)).mpr ⟨r, hr, hcode⟩
        rw [hmem] at hs
        simp at hs
      · rw [if_neg hany]
    · have hs : (alookup code (buildWriter hash rows).values).isSome := by
        rw [hmem]
        rfl
      rw [buildWriter_isSome] at hs
      obtain ⟨r, hr, hcode⟩ := (exists_mem_iff_getD rows []
        (fun row => rowHasCode hash row code = true)).mp hs
      have hany :
          ((bigBuild hash rows).temp.insertionSort tempLE).any
            (fun p => decide (p.1 = code)) = true := by
        apply List.any_eq_true.mpr
        exact ⟨(code, r), (hksmem code r).mpr ⟨hr, hcode⟩, by simp⟩
      rw [if_pos hany]
      congr 1
      ext x
      rw [mem_tempRowsOf code x, hksmem code x]
      have hb := buildWriter_mem hash rows code x
      rw [hmem] at hb
      simp only [Option.getD_some] at hb
      exact hb.symm

/-- C6 witness: the builder equivalence at the six-row group-by fixture,
with the concrete demo hash (which never codes a pair to `0`). -/
theorem claim_C6_external_builder_matches_inmemory_witness :
    (∀ row ∈ demoRows3, ∀ kv ∈ row, demoHash kv.1 kv.2 ≠ 0) ∧
    ∃ st : Store,
      bigFlush (bigBuild demoHash demoRows3) = some st ∧
      st.schema = (writeToStore (buildWriter demoHash demoRows3)).schema ∧
      st.nextRowID = (writeToStore (buildWriter demoHash demoRows3)).nextRowID ∧
      ∀ code, alookup code st.postings =
        alookup code (writeToStore (buildWriter demoHash demoRows3)).postings :=
  ⟨by decide,
   claim_C6_external_builder_matches_inmemory demoHash demoRows3 (by decide)⟩

/-! ### C7: group-by semantics.

The byte-lexicographic value order is a total preorder, `populateGroupBy`
sorts each column's values by it, zero-cardinality intersections are
dropped, and the frontier expansion respects the value order. -/

theorem charsLE_total : ∀ a b : List Char, charsLE a b = true ∨ charsLE b a = true := by
  intro a
  induction a with
  | nil => intro b; left; rfl
  | cons x as ih =>
    intro b
    cases b with
    | nil => right; rfl
    | cons y bs =>
      by_cases h1 : x.toNat < y.toNat
      · left
        simp [charsLE, h1]
      · by_cases h2 : y.toNat < x.toNat
        · right
          simp [charsLE, h2]
        · rcases ih bs with h | h
          · left
            simp [charsLE, h1, h2, h]
          · right
            simp [charsLE, h1, h2, h]

theorem charsLE_trans : ∀ a b c : List Char,
    charsLE a b = true → charsLE b c = true → charsLE a c = true := by
  intro a
  induction a with
  | nil => intro b c _ _; rfl
  | cons x as ih =>
    intro b c hab hbc
    cases b with
    | nil => simp [charsLE] at hab
    | cons y bs =>
      cases c with
      | nil => simp [charsLE] at hbc
      | cons z cs =>
        by_cases hxy : x.toNat < y.toNat
        · by_cases hyz : y.toNat < z.toNat
          · have hxz : x.toNat < z.toNat := Nat.lt_trans hxy hyz
            simp [charsLE, hxz]
          · by_cases hzy : z.toNat < y.toNat
            · simp [charsLE, hyz, hzy] at hbc
            · have hxz : x.toNat < z.toNat := by omega
              simp [charsLE, hxz]
        · by_cases hyx : y.toNat < x.toNat
          · simp [charsLE, hxy, hyx] at hab
          · by_cases hyz : y.toNat < z.toNat
            · have hxz : x.toNat < z.toNat := by omega
              simp [charsLE, hxz]
            · by_cases hzy : z.toNat < y.toNat
              · simp [charsLE, hyz, hzy] at hbc
              · have h1 : charsLE as bs = true := by
                  simpa [charsLE, hxy, hyx] using hab
                have h2 : charsLE bs cs = true := by
                  simpa [charsLE, hyz, hzy] using hbc
                have hxz : ¬ x.toNat < z.toNat := by omega
                have hzx : ¬ z.toNat < x.toNat := by omega
                simpa [charsLE, hxz, hzx] using ih bs cs h1 h2

instance : IsTotal GroupByValue gbvLE :=
  ⟨fun a b => by
    unfold gbvLE strLE
    exact charsLE_total a.value.data b.value.data⟩

instance : IsTrans GroupByValue gbvLE :=
  ⟨fun a b c hab hbc => by
    unfold gbvLE strLE at hab hbc ⊢
    exact charsLE_trans _ _ _ hab hbc⟩

theorem expandValues_pos (idx : Index) (rg : ResultGroupAcc) (c : String) :
    ∀ (vs : List GroupByValue) (x : ResultGroupAcc),
      x ∈ expandValues idx rg c vs → 0 < x.result.card := by
  intro vs
  induction vs with
  | nil =>
    intro x hx
    simp [expandValues] at hx
  | cons v rest ih =>
    intro x hx
    rcases hg : idx.getCol v.idx with e | vbm
    · simp only [expandValues, hg] at hx
      exact ih x hx
    · simp only [expandValues, hg] at hx
      by_cases hcard : (rg.result ∩ vbm).card = 0
      · rw [if_pos hcard] at hx
        exact ih x hx
      · rw [if_neg hcard] at hx
        rcases List.mem_cons.mp hx with rfl | hx'
        · show 0 < (rg.result ∩ vbm).card
          omega
        · exact ih x hx'

theorem expandField_pos (idx : Index) (rgs : List ResultGroupAcc)
    (gbf : GroupByField) :
    ∀ x ∈ expandField idx rgs gbf, 0 < x.result.card := by
  intro x hx
  unfold expandField at hx
  obtain ⟨rg, _, hmem⟩ := List.mem_flatMap.mp hx
  exact expandValues_pos idx rg gbf.column gbf.values x hmem

theorem foldl_expandField_pos (idx : Index) :
    ∀ (gbfs : List GroupByField) (rgs : List ResultGroupAcc),
      (∀ x ∈ rgs, 0 < x.result.card) →
      ∀ x ∈ gbfs.foldl (expandField idx) rgs, 0 < x.result.card := by
  intro gbfs
  induction gbfs with
  | nil => intro rgs h; exact h
  | cons gbf rest ih =>
    intro rgs _
    rw [List.foldl_cons]
    exact ih (expandField idx rgs gbf) (expandField_pos idx rgs gbf)

theorem groupByRun_pos (idx : Index) (gbfs : List GroupByField) (bm : Bitmap) :
    ∀ g ∈ groupByRun idx gbfs bm, 0 < g.count := by
  intro g hg
  rcases gbfs with _ | ⟨gbf, rest⟩
  · simp [groupByRun] at hg
  · simp only [groupByRun, List.mem_map] at hg
    obtain ⟨rg, hrg, rfl⟩ := hg
    rw [List.foldl_cons] at hrg
    exact foldl_expandField_pos idx rest (expandField idx [⟨[], bm⟩] gbf)
      (expandField_pos idx [⟨[], bm⟩] gbf) rg hrg

theorem populateGroupBy_spec (sch : Schema) :
    ∀ (cols : List String) (gbfs : List GroupByField),
      populateGroupBy sch cols = .ok gbfs →
        gbfs.map GroupByField.column = cols ∧
        ∀ gbf ∈ gbfs, List.Pairwise gbvLE gbf.values := by
  intro cols
  induction cols with
  | nil =>
    intro gbfs h
    obtain rfl := Except.ok.inj h
    exact ⟨rfl, by simp⟩
  | cons c rest ih =>
    intro gbfs h
    simp only [populateGroupBy] at h
    rcases hcol : alookup c sch.columns with _ | col
    · rw [hcol] at h
      cases h
    · rw [hcol] at h
      rcases hrec : populateGroupBy sch rest with m | gbs
      · rw [hrec] at h
        cases h
      · rw [hrec] at h
        obtain rfl := Except.ok.inj h
        obtain ⟨h1, h2⟩ := ih gbs hrec
        refine ⟨by simp [h1], ?_⟩
        intro gbf hgbf
        rcases List.mem_cons.mp hgbf with rfl | hgbf'
        · exact List.sorted_insertionSort gbvLE _
        · exact h2 gbf hgbf'

theorem expandValues_eq_filterMap (idx : Index) (rg : ResultGroupAcc) (c : String) :
    ∀ vs : List GroupByValue,
      expandValues idx rg c vs = vs.filterMap (fun v =>
        match idx.getCol v.idx with
        | .error _ => none
        | .ok vbm =>
          if (rg.result ∩ vbm).card = 0 then none
          else some ⟨rg.fields ++ [⟨c, v.value⟩], rg.result ∩ vbm⟩) := by
  intro vs
  induction vs with
  | nil => rfl
  | cons v rest ih =>
    rw [List.filterMap_cons]
    rcases hg : idx.getCol v.idx with e | vbm
    · simp only [expandValues, hg, ih]
    · by_cases hcard : (rg.result ∩ vbm).card = 0
      · simp only [expandValues, hg, if_pos hcard, ih]
      · simp only [expandValues, hg, if_neg hcard, ih]

theorem pairwise_filterMap_of {α β : Type} {R : α → α → Prop} (f : β → Option α) :
    ∀ {l : List β},
      List.Pairwise (fun a a' => ∀ b, f a = some b → ∀ b', f a' = some b' → R b b') l →
      List.Pairwise R (l.filterMap f) := by
  intro l
  induction l with
  | nil => intro _; simp
  | cons a l ih =>
    intro h
    obtain ⟨h1, h2⟩ := List.pairwise_cons.mp h
    rw [List.filterMap_cons]
    rcases hf : f a with _ | b
    · exact ih h2
    · apply List.pairwise_cons.mpr
      refine ⟨?_, ih h2⟩
      intro b' hb'
      obtain ⟨x, hx, hfx⟩ := List.mem_filterMap.mp hb'
      exact h1 x hx b hf b' hfx

/-- C7: grouped results expand the result bitmap per group-by column in
order: `populateGroupBy` keeps the requested columns in order and sorts
each column's values ascending by byte-lexicographic value
(conjunct 2); every emitted group has positive count — zero-cardinality
intersections are dropped (conjunct 1); with a single group-by column the
emitted groups appear in ascending value order (conjunct 3); and on
scenario 3, `a="2"` grouped by `x` over the six demo rows yields count 3
with groups `[(x=false, 2), (x=true, 1)]` in that order (conjunct 4). -/
theorem claim_C7_group_by_expansion_semantics :
    (∀ (hash : String → String → Nat) (idx : Index) (q : Query) (res : Result),
        executeQuery hash idx q = .ok res → ∀ g ∈ res.groups, 0 < g.count) ∧
    (∀ (sch : Schema) (cols : List String) (gbfs : List GroupByField),
        populateGroupBy sch cols = .ok gbfs →
          gbfs.map GroupByField.column = cols ∧
          ∀ gbf ∈ gbfs, List.Pairwise gbvLE gbf.values) ∧
    (∀ (hash : String → String → Nat) (idx : Index) (q : Query) (res : Result)
        (c : String),
        q.groupBy = [c] → executeQuery hash idx q = .ok res →
        List.Pairwise (fun g1 g2 : ResultGroup =>
          ∀ f1 f2 : ResultField, g1.fields = [f1] → g2.fields = [f2] →
            strLE f1.value f2.value = true) res.groups) ∧
    executeQuery demoHash demoIdx3 ⟨.equal "a" "2", ["x"]⟩ =
      .ok ⟨3, [⟨[⟨"x", "false"⟩], 2⟩, ⟨[⟨"x", "true"⟩], 1⟩]⟩ := by
  refine ⟨?_, populateGroupBy_spec, ?_, ?_⟩
  · intro hash idx q res hex
    rcases hpop : populateGroupBy idx.schema q.groupBy with m | gbfs
    · simp only [executeQuery, hpop] at hex
      cases hex
    · simp only [executeQuery, hpop] at hex
      rcases hev : evalExpr hash nullCacheOps idx q.expr () with ⟨er, s⟩
      rcases er with m | bm
      · simp only [hev] at hex
        cases hex
      · simp only [hev] at hex
        obtain rfl := Except.ok.inj hex
        exact groupByRun_pos idx gbfs bm
  · intro hash idx q res c hq hex
    rcases hpop : populateGroupBy idx.schema q.groupBy with m | gbfs
    · simp only [executeQuery, hpop] at hex
      cases hex
    · simp only [executeQuery, hpop] at hex
      rcases hev : evalExpr hash nullCacheOps idx q.expr () with ⟨er, s⟩
      rcases er with m | bm
      · simp only [hev] at hex
        cases hex
      · simp only [hev] at hex
        obtain rfl := Except.ok.inj hex
        rw [hq] at hpop
        simp only [populateGroupBy] at hpop
        rcases hcol : alookup c idx.schema.columns with _ | col
        · rw [hcol] at hpop
          cases hpop
        · rw [hcol] at hpop
          obtain rfl := Except.ok.inj hpop
          show List.Pairwise
            (fun g1 g2 : ResultGroup =>
              ∀ f1 f2 : ResultField, g1.fields = [f1] → g2.fields = [f2] →
                strLE f1.value f2.value = true)
            (groupByRun idx
              [⟨c, (col.values.map fun p => GroupByValue.mk p.1 p.2).insertionSort gbvLE⟩]
              bm)
          have hrun : groupByRun idx
              [⟨c, (col.values.map fun p => GroupByValue.mk p.1 p.2).insertionSort gbvLE⟩]
              bm =
              (expandValues idx ⟨[], bm⟩ c
                ((col.values.map fun p => GroupByValue.mk p.1 p.2).insertionSort gbvLE)).map
                (fun rg => ResultGroup.mk rg.fields rg.result.card) := by
            simp [groupByRun, expandField, List.flatMap_cons, List.flatMap_nil]
          rw [hrun, expandValues_eq_filterMap, List.pairwise_map]
          apply pairwise_filterMap_of
          have hvals : List.Pairwise gbvLE
              ((col.values.map fun p => GroupByValue.mk p.1 p.2).insertionSort gbvLE) :=
            List.sorted_insertionSort gbvLE _
          refine List.Pairwise.imp ?_ hvals
          intro a b hab x hx y hy
          simp only [] at hx hy
          rcases hga : idx.getCol a.idx with e | abm
          · simp only [hga] at hx
            cases hx
          · simp only [hga] at hx
            by_cases hca : (({ fields := [], result := bm } : ResultGroupAcc).result ∩ abm).card = 0
            · rw [if_pos hca] at hx
              cases hx
            · rw [if_neg hca] at hx
              obtain rfl := (Option.some.inj hx).symm
              rcases hgb : idx.getCol b.idx with e | bbm
              · simp only [hgb] at hy
                cases hy
              · simp only [hgb] at hy
                by_cases hcb : (({ fields := [], result := bm } : ResultGroupAcc).result ∩ bbm).card = 0
                · rw [if_pos hcb] at hy
                  cases hy
                · rw [if_neg hcb] at hy
                  obtain rfl := (Option.some.inj hy).symm
                  intro f1 f2 h1 h2
                  simp only [List.nil_append, List.cons.injEq, and_true] at h1 h2
                  rw [← h1, ← h2]
                  exact hab
  · rfl

/-- C7 witness: the positivity conjunct applied at the scenario-3 query,
whose result is the scenario conjunct's concrete value. -/
theorem claim_C7_group_by_expansion_semantics_witness :
    ∀ g ∈ (Result.mk 3 [⟨[⟨"x", "false"⟩], 2⟩, ⟨[⟨"x", "true"⟩], 1⟩]).groups,
      0 < g.count :=
  claim_C7_group_by_expansion_semantics.1 demoHash demoIdx3
    ⟨.equal "a" "2", ["x"]⟩ ⟨3, [⟨[⟨"x", "false"⟩], 2⟩, ⟨[⟨"x", "true"⟩], 1⟩]⟩
    (by rfl)

/-! ### C8: mixing `&` and `|` at one level.

The parser's `parse` never checks that the token stream is exhausted
after the expression (and optional field list), so a top-level operator
switch is silently accepted: the chain ends at the first foreign operator
and the tail is ignored.  Inside parentheses the missing `)` check does
reject the mix. -/

/-- C8 counterexample: the query `a = "1" & b = "2" | c = "3"` mixes `&`
and `|` at the same parenthesis level, yet parsing succeeds — it returns
the `And` of the first two comparisons and silently drops `| c = "3"`,
refuting "it is never accepted". -/
theorem claim_C8_counterexample :
    parseQuery "a = \"1\" & b = \"2\" | c = \"3\"" =
      .ok ⟨.and [.eq "a" "1" 0, .eq "b" "2" 0], []⟩ := rfl

/-- C8 (amended): at top level, a query whose `&` chain is followed by `|`
parses successfully to the bare `&` chain with the `|` tail ignored
(because `parser.parse` never requires EOF); the same mixed chain inside
parentheses fails with "expected )".  Mixing is thus rejected only inside
parentheses, not at top level. -/
theorem claim_C8_amended_mixed_operators_top_level_accepted
    (f1 v1 f2 v2 f3 v3 : String) :
    parseQueryTokens
        [.field f1, .equalTok, .value v1, .andTok,
         .field f2, .equalTok, .value v2, .orTok,
         .field f3, .equalTok, .value v3, .eof] =
      .ok ⟨.and [.eq f1 (decodeString v1) 0, .eq f2 (decodeString v2) 0], []⟩ ∧
    parseQueryTokens
        [.openParen, .field f1, .equalTok, .value v1, .andTok,
         .field f2, .equalTok, .value v2, .orTok,
         .field f3, .equalTok, .value v3, .closeParen, .eof] =
      .error "expected )" :=
  ⟨rfl, rfl⟩

/-! ### C9: placeholder substitution. -/

mutual

theorem replaceExpr_isSome (values : List String) :
    ∀ e : PExpr, (replaceExpr values e).isSome = placeholdersBoundExpr values e
  | .eq c v p => by
    by_cases hp : p = 0
    · subst hp
      simp [replaceExpr, placeholdersBoundExpr]
    · have hp' : 0 < p := Nat.pos_of_ne_zero hp
      simp only [replaceExpr, placeholdersBoundExpr, if_pos hp', if_neg hp]
      rcases hg : values.get? (p - 1) with _ | a <;> simp [hg]
  | .not e => by
    have ih := replaceExpr_isSome values e
    rcases h : replaceExpr values e with _ | e' <;>
      simp [replaceExpr, placeholdersBoundExpr, h, ← ih]
  | .and es => by
    have ih := replaceList_isSome values es
    rcases h : replaceList values es with _ | es' <;>
      simp [replaceExpr, placeholdersBoundExpr, h, ← ih]
  | .or es => by
    have ih := replaceList_isSome values es
    rcases h : replaceList values es with _ | es' <;>
      simp [replaceExpr, placeholdersBoundExpr, h, ← ih]

theorem replaceList_isSome (values : List String) :
    ∀ es : List PExpr, (replaceList values es).isSome = placeholdersBoundList values es
  | [] => by simp [replaceList, placeholdersBoundList]
  | e :: es => by
    have ih1 := replaceExpr_isSome values e
    have ih2 := replaceList_isSome values es
    simp only [replaceList, placeholdersBoundList, ← ih1, ← ih2]
    rcases h1 : replaceExpr values e with _ | e'
    · simp [h1]
    · rcases h2 : replaceList values es with _ | es' <;> simp [h1, h2]

end

/-- C9 counterexample: substituting `["x"]` into `a = $2` hits a
placeholder with no bound argument.  The source indexes
`values[placeholder-1]` out of range — a runtime panic (modelled `none`),
not an `ArgumentError` returned to the caller; indeed
`ReplacePlaceholders` has no error return value at all. -/
theorem claim_C9_counterexample :
    replacePlaceholders ⟨.eq "a" "" 2, []⟩ ["x"] = none := rfl

/-- C9 (amended): the substitution pass walks the AST: an `Eq` with
placeholder `n > 0` bound by the argument list becomes `Eq` with value
`args[n-1]` and placeholder `0`; an `Eq` without a placeholder and all
other node shapes are rebuilt unchanged; `GroupBy` is preserved.
Substitution succeeds iff every placeholder is bound; a missing argument
is an out-of-range index — a panic, not a returned `ArgumentError`. -/
theorem claim_C9_amended_placeholder_substitution :
    (∀ (q : PQuery) (values : List String),
        (replacePlaceholders q values).isSome = placeholdersBoundExpr values q.expr) ∧
    (∀ (values : List String) (c v : String) (p : Nat) (a : String),
        0 < p → values.get? (p - 1) = some a →
        replaceExpr values (.eq c v p) = some (.eq c a 0)) ∧
    (∀ (values : List String) (c v : String),
        replaceExpr values (.eq c v 0) = some (.eq c v 0)) ∧
    (∀ (values : List String) (e : PExpr),
        replaceExpr values (.not e) = (replaceExpr values e).map PExpr.not) ∧
    (∀ (values : List String) (es : List PExpr),
        replaceExpr values (.and es) = (replaceList values es).map PExpr.and) ∧
    (∀ (values : List String) (es : List PExpr),
        replaceExpr values (.or es) = (replaceList values es).map PExpr.or) ∧
    (∀ (q : PQuery) (values : List String) (q' : PQuery),
        replacePlaceholders q values = some q' → q'.groupBy = q.groupBy) := by
  refine ⟨?_, ?_, ?_, ?_, ?_, ?_, ?_⟩
  · intro q values
    rw [← replaceExpr_isSome]
    rcases h : replaceExpr values q.expr with _ | e' <;>
      simp [replacePlaceholders, h]
  · intro values c v p a hp hg
    rw [List.get?_eq_getElem?] at hg
    simp [replaceExpr, hp, hg]
  · intro values c v
    simp [replaceExpr]
  · intro values e
    rcases h : replaceExpr values e with _ | e' <;> simp [replaceExpr, h]
  · intro values es
    rcases h : replaceList values es with _ | es' <;> simp [replaceExpr, h]
  · intro values es
    rcases h : replaceList values es with _ | es' <;> simp [replaceExpr, h]
  · intro q values q' hq
    simp only [replacePlaceholders] at hq
    rcases h : replaceExpr values q.expr with _ | e' <;> rw [h] at hq
    · cases hq
    · obtain rfl := Option.some.inj hq
      rfl

/-- C9 witness: the substitution conjuncts evaluated at the one-argument
query `a = $1` with argument list `["x"]`. -/
theorem claim_C9_amended_placeholder_substitution_witness :
    (replacePlaceholders ⟨.eq "a" "" 1, ["g"]⟩ ["x"]).isSome =
      placeholdersBoundExpr ["x"] (PExpr.eq "a" "" 1) ∧
    replaceExpr ["x"] (.eq "a" "" 1) = some (.eq "a" "x" 0) :=
  ⟨claim_C9_amended_placeholder_substitution.1 ⟨.eq "a" "" 1, ["g"]⟩ ["x"],
   claim_C9_amended_placeholder_substitution.2.1 ["x"] "a" "" 1 "x"
     (by decide) rfl⟩

end Updog
